import Mathlib

/-!
Verification of the ralph-todos task-queue and worktree utilities
(`src/ralph-todos/scripts/todo-utils.ts` and
`src/ralph-todos/scripts/worktree-utils.ts`).

Strings are modelled as `List Char` (`Str`); JavaScript string operations
(`split`, `trim`, `slice`, `includes`, `replace`, ...) are embedded as
structurally recursive functions on `Str` so that every definition is
executable and every concrete instance can be settled by `decide`.
-/

/-- Strings are modelled as lists of characters. -/
abbrev Str := List Char

/-- Convert a Lean string literal to the `Str` model. -/
def S (s : String) : Str := s.toList

/-- JS `String.prototype.split(sep)` for a one-character separator.
Splitting never yields the empty list; splitting the empty string yields
`[[]]`, as in JavaScript. -/
def splitOnChar (c : Char) : Str → List Str
  | [] => [[]]
  | x :: xs =>
    match splitOnChar c xs with
    | [] => [[]]
    | l :: ls => if x = c then [] :: l :: ls else (x :: l) :: ls

/-- Join a list of strings with a one-character separator (JS `join`). -/
def joinWith (c : Char) : List Str → Str
  | [] => []
  | [l] => l
  | l :: l2 :: ls => l ++ c :: joinWith c (l2 :: ls)

/-- First occurrence of a character: `breakAtChar c s = some (pre, post)`
with `s = pre ++ c :: post` and `c ∉ pre` (JS `indexOf` + two `slice`s). -/
def breakAtChar (c : Char) : Str → Option (Str × Str)
  | [] => none
  | x :: xs =>
    if x = c then some ([], xs)
    else (breakAtChar c xs).map (fun p => (x :: p.1, p.2))

/-- Split at the first occurrence of a (non-empty) separator string. -/
def splitFirst (sep : Str) : Str → Option (Str × Str)
  | [] => none
  | c :: t =>
    if sep.isPrefixOf (c :: t) then some ([], (c :: t).drop sep.length)
    else (splitFirst sep t).map (fun p => (c :: p.1, p.2))

/-- Fuel-driven worker for `splitOnSeq`. -/
def splitOnSeqF (sep : Str) : Nat → Str → List Str
  | 0, s => [s]
  | fuel + 1, s =>
    match splitFirst sep s with
    | none => [s]
    | some (pre, post) => pre :: splitOnSeqF sep fuel post

/-- JS `String.prototype.split(sep)` for a multi-character separator. -/
def splitOnSeq (sep : Str) (s : Str) : List Str := splitOnSeqF sep (s.length + 1) s

/-- JS `String.prototype.replace(pat, "")` with a string pattern: removes the
first occurrence of `pat`, if any. -/
def replaceFirst (pat : Str) (s : Str) : Str :=
  match splitFirst pat s with
  | none => s
  | some (pre, post) => pre ++ post

/-- JS `String.prototype.includes(n)`. -/
def containsSeq (n : Str) : Str → Bool
  | [] => n.isEmpty
  | c :: t => n.isPrefixOf (c :: t) || containsSeq n t

/-- Left trim (drop leading whitespace). -/
def trimL (s : Str) : Str := s.dropWhile Char.isWhitespace

/-- Right trim (drop trailing whitespace). -/
def trimR (s : Str) : Str := (s.reverse.dropWhile Char.isWhitespace).reverse

/-- JS `String.prototype.trim()`. -/
def trim (s : Str) : Str := trimR (trimL s)

/-- JS `String.prototype.toLowerCase()` (ASCII case mapping). -/
def lowerStr (s : Str) : Str := s.map Char.toLower

/-- JS `String.prototype.padStart(w, c)`. -/
def padStart (w : Nat) (c : Char) (s : Str) : Str :=
  List.replicate (w - s.length) c ++ s

/-- Numeric value of a digit string (JS `parseInt` restricted to the
all-digit strings produced by `parseFilename`). -/
def digitsVal (s : Str) : Nat :=
  s.foldl (fun a c => a * 10 + (c.toNat - 48)) 0

/-- Fuel-driven decimal rendering of a natural number. -/
def natToStrF : Nat → Nat → Str
  | 0, _ => []
  | fuel + 1, n =>
    if n < 10 then [Char.ofNat (48 + n)]
    else natToStrF fuel (n / 10) ++ [Char.ofNat (48 + n % 10)]

/-- Decimal rendering of a natural number (JS `String(n)`). -/
def natToStr (n : Nat) : Str := natToStrF (n + 1) n

/-- JS `slice(1, -1)`: drop the first and the last character. -/
def dropEnds (s : Str) : Str := (s.drop 1).dropLast

/-- A string is free of the character `c`. -/
def noChar (c : Char) (s : Str) : Prop := c ∉ s

/-! ## Front matter (todo-utils.ts lines 62–160)

The ad hoc YAML parser stores scalar and bracket-list values in a record;
we model the record as an association list built with insert-or-replace
semantics (`fmSet`), matching JavaScript object assignment. -/

/-- A parsed YAML value: a scalar string or a bracketed list of strings. -/
inductive Yaml where
  | str (s : Str)
  | arr (l : List Str)
deriving DecidableEq

/-- The front-matter record: an association list with unique keys. -/
abbrev Fm := List (Str × Yaml)

/-- Record field read (`frontmatter[key]`). -/
def fmGet (fm : Fm) (k : Str) : Option Yaml :=
  (fm.find? (fun kv => kv.1 = k)).map (fun kv => kv.2)

/-- Record field write (`frontmatter[key] = value`): replaces the existing
entry in place, else appends — JavaScript object assignment order. -/
def fmSet : Fm → Str → Yaml → Fm
  | [], k, v => [(k, v)]
  | (m, w) :: t, k, v => if m = k then (k, v) :: t else (m, w) :: fmSet t k v

/-- Strip one leading single or double quote (the `^["']` alternative). -/
def stripLeadingQuote : Str → Str
  | c :: t => if c = '"' ∨ c = '\'' then t else c :: t
  | [] => []

/-- Strip one trailing single or double quote (the `["']$` alternative). -/
def stripTrailingQuote (s : Str) : Str :=
  match s.getLast? with
  | some c => if c = '"' ∨ c = '\'' then s.dropLast else s
  | none => s

/-- `replace(/^["']|["']$/g, "")`: strip one leading and one trailing
single or double quote. -/
def stripQuotesOnce (s : Str) : Str := stripTrailingQuote (stripLeadingQuote s)

/-- Elements of a bracketed value: `value.slice(1,-1).split(",")` with each
element trimmed and one layer of quotes stripped (lines 90–94). -/
def parseArrBody (v : Str) : List Str :=
  (splitOnChar (',') (dropEnds v)).map (fun e => stripQuotesOnce (trim e))

/-- Parse one line of the YAML block (lines 80–99): split at the first
colon, trim key and value, skip blank values, recognise bracketed lists and
quoted scalars. -/
def parseLine (line : Str) : Option (Str × Yaml) :=
  match breakAtChar (':') line with
  | none => none
  | some (pre, post) =>
    let k := trim pre
    let v := trim post
    if v = [] then none
    else if v.head? = some ('[') then some (k, Yaml.arr (parseArrBody v))
    else if v.head? = some ('"') then some (k, Yaml.str (dropEnds v))
    else some (k, Yaml.str v)

/-- Accumulate one parsed line into the record (the loop body of
lines 80–100). -/
def parseStep (fm : Fm) (line : Str) : Fm :=
  match parseLine line with
  | none => fm
  | some (k, v) => fmSet fm k v

/-- Parse the whole YAML block: fold `parseLine` over the lines. -/
def parseYaml (y : Str) : Fm :=
  (splitOnChar ('\n') y).foldl parseStep []

/-- Default front matter returned when the `---` block is missing
(lines 68–73). -/
def defaultFm : Fm :=
  [(S ("status"), Yaml.str (S ("pending"))), (S ("priority"), Yaml.str (S ("p3")))]

/-- Find the first line equal to `---` that is followed by at least one more
line; returns the lines before it and the lines after it.  This realises the
lazy group of the regex `^---\n([\s\S]*?)\n---\n([\s\S]*)$`: the delimiter
`\n---\n` is the first full line `---` enclosed by newlines. -/
def findDelimGo : List Str → Option (List Str × List Str)
  | [] => none
  | l :: t =>
    if l = S ("---") ∧ t ≠ [] then some ([], t)
    else (findDelimGo t).map (fun p => (l :: p.1, p.2))

/-- `parseFrontmatter` (lines 63–106).  The regex
`^---\n([\s\S]*?)\n---\n([\s\S]*)$` matches exactly when the first line is
`---` and some later line (at index ≥ 2, because of the mandatory newline
after the lazy group) is `---` with at least one line after it; the lazy
group makes it the first such line.  On no match the default front matter is
returned with the whole input as body. -/
def parseFrontmatter (content : Str) : Fm × Str :=
  match splitOnChar ('\n') content with
  | first :: r0 :: rtail =>
    if first = S ("---") then
      match findDelimGo rtail with
      | some (pre, post) =>
        (parseYaml (joinWith ('\n') (r0 :: pre)), joinWith ('\n') post)
      | none => (defaultFm, content)
    else (defaultFm, content)
  | _ => (defaultFm, content)

/-- Join a list of strings with a multi-character separator. -/
def joinWithS (sep : Str) : List Str → Str
  | [] => []
  | [l] => l
  | l :: l2 :: ls => l ++ sep ++ joinWithS sep (l2 :: ls)

/-- Decides whether the front-matter regex matches: the first line is
`---` and a later line (index ≥ 2) is `---` with at least one line after
it. -/
def hasFmBlock (content : Str) : Bool :=
  match splitOnChar ('\n') content with
  | first :: _ :: rtail => first = S ("---") && (findDelimGo rtail).isSome
  | _ => false

/-- Serialise one front-matter value (lines 109–122): arrays print each
element double-quoted and `", "`-joined inside brackets; a string containing
a space is double-quoted; anything else prints raw. -/
def serValue : Yaml → Str
  | Yaml.str s => if ' ' ∈ s then '"' :: s ++ ['"'] else s
  | Yaml.arr l =>
    '[' :: joinWithS (S (", ")) (l.map (fun v => '"' :: v ++ ['"'])) ++ [']']

/-- Serialise one front-matter entry: `key: value`. -/
def serLine (kv : Str × Yaml) : Str := kv.1 ++ S (": ") ++ serValue kv.2

/-- `serializeFrontmatter` (lines 109–122): one line per entry, joined by
newlines. -/
def serializeFrontmatter (fm : Fm) : Str := joinWith ('\n') (fm.map serLine)

/-- Rebuild a file: `---\n{yaml}\n---\n{body}` (lines 251, 279, 361). -/
def mkContent (fm : Fm) (body : Str) : Str :=
  S ("---\n") ++ serializeFrontmatter fm ++ S ("\n---\n") ++ body

/-! ## Filenames and todo records (todo-utils.ts lines 124–160) -/

/-- The four components extracted from a todo filename. -/
structure PF where
  number : Str
  status : Str
  priority : Str
  slug : Str
deriving DecidableEq

/-- JS `\w`: ASCII letters, digits and underscore. -/
def isWordChar (c : Char) : Bool := c.isAlphanum || c = '_'

/-- `parseFilename` (lines 131–150), the regex
`^(\d+)-(\w+)-(p[123])-(.+)\.md$`.  `\d+` and `\w+` are forced to the
maximal runs (the character after each must be `-`, which neither class
matches), `p[123]` is literal, and the greedy `(.+)` with the `\.md$`
anchor keeps everything up to the final `.md`.  On no match the code
returns number `000`, status `unknown`, priority `p3` and the whole
filename as slug. -/
def pfDefault (filename : Str) : PF :=
  ⟨S ("000"), S ("unknown"), S ("p3"), filename⟩

/-- Worker for the `(p[123])-(.+)\.md$` tail of the filename regex. -/
def parseFilenameAux2 (filename d w : Str) : Str → PF
  | c2 :: c3 :: c4 :: c5 :: r3 =>
    if c2 = ('-') ∧ c3 = ('p') ∧ (c4 = ('1') ∨ c4 = ('2') ∨ c4 = ('3')) ∧ c5 = ('-')
        ∧ (S (".md")).isSuffixOf r3 = true ∧ 4 ≤ r3.length
    then ⟨d, w, [c3, c4], r3.take (r3.length - 3)⟩
    else pfDefault filename
  | _ => pfDefault filename

/-- Worker for the `-(\w+)-` middle of the filename regex. -/
def parseFilenameAux1 (filename d : Str) : Str → PF
  | c1 :: r1 =>
    if c1 = ('-') then
      if r1.takeWhile isWordChar = [] then pfDefault filename
      else parseFilenameAux2 filename d (r1.takeWhile isWordChar)
        (r1.drop (r1.takeWhile isWordChar).length)
    else pfDefault filename
  | [] => pfDefault filename

/-- `parseFilename` (lines 131–150), the regex
`^(\d+)-(\w+)-(p[123])-(.+)\.md$`.  `\d+` and `\w+` are forced to the
maximal runs (the character after each must be `-`, which neither class
matches), `p[123]` is literal, and the greedy `(.+)` with the `\.md$`
anchor keeps everything up to the final `.md`.  On no match the code
returns number `000`, status `unknown`, priority `p3` and the whole
filename as slug. -/
def parseFilename (filename : Str) : PF :=
  if filename.takeWhile Char.isDigit = [] then pfDefault filename
  else parseFilenameAux1 filename (filename.takeWhile Char.isDigit)
    (filename.drop (filename.takeWhile Char.isDigit).length)

/-- `buildFilename` (lines 153–160): `{number}-{status}-{priority}-{slug}.md`. -/
def buildFilename (number status priority slug : Str) : Str :=
  number ++ S ("-") ++ status ++ S ("-") ++ priority ++ S ("-") ++ slug ++ S (".md")

/-- One line matched against `/^#\s+(.+)$/`: a `#`, at least one whitespace
character, then a non-empty remainder; greedy `\s+` backtracks one character
when nothing else is left for `(.+)`. -/
def titleOfLine (l : Str) : Option Str :=
  match l with
  | '#' :: rest =>
    let w := rest.takeWhile Char.isWhitespace
    let r := rest.drop w.length
    if w = [] then none
    else if r ≠ [] then some (trim r)
    else if 2 ≤ w.length then some (trim (w.drop (w.length - 1)))
    else none
  | _ => none

/-- `extractTitle` (lines 125–128): first line matching `/^#\s+(.+)$/m`,
trimmed, else `Untitled`. -/
def extractTitle (body : Str) : Str :=
  ((splitOnChar ('\n') body).findSome? titleOfLine).getD (S ("Untitled"))

/-- A parsed todo item (the `Todo` interface, lines 41–49; `filepath` is
omitted — it is `join(TODOS_DIR, filename)`). -/
structure Todo where
  filename : Str
  frontmatter : Fm
  title : Str
  content : Str
  slug : Str
  number : Str
deriving DecidableEq

/-- Build the `Todo` record pushed by `listTodos` (lines 170–185). -/
def mkTodo (fn content : Str) : Todo :=
  let fb := parseFrontmatter content
  let pf := parseFilename fn
  { filename := fn, frontmatter := fb.1, title := extractTitle fb.2,
    content := fb.2, slug := pf.slug, number := pf.number }

/-- The status filter of `listTodos` (line 175): a missing or empty filter
keeps everything (JS falsiness of `""`); otherwise the front-matter `status`
must be strictly equal to the filter string. -/
def keepStatus (filt : Option Str) (t : Todo) : Bool :=
  match filt with
  | none => true
  | some f =>
    if f = [] then true
    else decide (fmGet t.frontmatter (S ("status")) = some (Yaml.str f))

/-- All `.md` entries of the directory listing, parsed (lines 167–186,
before the status filter). -/
def allTodos (files : List (Str × Str)) : List Todo :=
  (files.filter (fun p => (S (".md")).isSuffixOf p.1)).map (fun p => mkTodo p.1 p.2)

/-- The items `listTodos` collects before sorting. -/
def parsedTodos (files : List (Str × Str)) (filt : Option Str) : List Todo :=
  (allTodos files).filter (keepStatus filt)

/-! ## The sort (todo-utils.ts lines 188–211) -/

/-- The `linear_cycle` front-matter value of an item. -/
def cycVal (t : Todo) : Option Yaml := fmGet t.frontmatter (S ("linear_cycle"))

/-- `cycleOrder` (lines 190–194) on the raw field: a missing or empty cycle
(JS falsy) ranks 3, a cycle containing `current` case-insensitively ranks 1,
anything else 2.  A bracket-list value would make the JS code throw inside
`toLowerCase`; the model assigns 0 there and the theorems assume
string-typed cycles (`cycleOk`). -/
def cycleOrder (c : Option Yaml) : Int :=
  match c with
  | none => 3
  | some (Yaml.str s) =>
    if s = [] then 3
    else if containsSeq (S ("current")) (lowerStr s) then 1 else 2
  | some (Yaml.arr _) => 0

/-- `priorityOrder[priority]` (line 189): `some` rank for the three tiers,
`none` (JS `undefined`, giving `NaN` arithmetic) otherwise. -/
def prioRank (t : Todo) : Option Int :=
  match fmGet t.frontmatter (S ("priority")) with
  | some (Yaml.str s) =>
    if s = S ("p1") then some 1
    else if s = S ("p2") then some 2
    else if s = S ("p3") then some 3
    else none
  | _ => none

/-- `parseInt(todo.number)` (line 210). -/
def numVal (t : Todo) : Int := (digitsVal t.number : Int)

/-- The comparator of lines 196–211.  When either priority rank is
`undefined` the JS subtraction gives `NaN`, which is `!== 0`, is returned,
and is treated as "equal" by `Array.prototype.sort`; the model returns 0 in
that case and never reaches the number comparison, exactly as the code. -/
def cmpTodos (a b : Todo) : Int :=
  let cd := cycleOrder (cycVal a) - cycleOrder (cycVal b)
  if cd ≠ 0 then cd
  else
    match prioRank a, prioRank b with
    | some x, some y => if x - y ≠ 0 then x - y else numVal a - numVal b
    | _, _ => 0

/-- `a` sorts no later than `b` under the comparator. -/
def todoLe (a b : Todo) : Bool := decide (cmpTodos a b ≤ 0)

/-- Stable insertion into a sorted list. -/
def ordInsert (le : Todo → Todo → Bool) (a : Todo) : List Todo → List Todo
  | [] => [a]
  | b :: t => if le a b then a :: b :: t else b :: ordInsert le a t

/-- Stable insertion sort.  `Array.prototype.sort` is specified to produce
the sorted stable permutation of its input for a consistent comparator,
which is unique, so any stable sorting algorithm is a faithful model. -/
def insSort (le : Todo → Todo → Bool) : List Todo → List Todo
  | [] => []
  | a :: t => ordInsert le a (insSort le t)

/-- `listTodos` (lines 163–214): read the `.md` files, parse them, filter by
status, sort with the cycle/priority/number comparator. -/
def listTodos (files : List (Str × Str)) (filt : Option Str) : List Todo :=
  insSort todoLe (parsedTodos files filt)

/-! ## Dependencies and the pending queue (todo-utils.ts lines 217–234) -/

/-- `todo.frontmatter.dependencies || []` (line 225).  A scalar string here
would make the JS code throw (`.filter` on a string); the model returns `[]`
and the theorems assume list-typed dependencies (`depsOk`). -/
def depsOf (t : Todo) : List Str :=
  match fmGet t.frontmatter (S ("dependencies")) with
  | some (Yaml.arr l) => l
  | _ => []

/-- Dependencies after `filter((d) => d && d.trim() !== "")` (line 225). -/
def depsF (t : Todo) : List Str :=
  (depsOf t).filter (fun d => decide (d ≠ []) && decide (trim d ≠ []))

/-- `unmetDeps.length === 0` for a given completed-id set (lines 226–228). -/
def eligibleB (cids : List Str) (t : Todo) : Bool :=
  ((depsF t).filter (fun d => !(cids.contains d))).isEmpty

/-- The scan of lines 223–233: first pending todo with no unmet
dependencies. -/
def firstEligible (cids : List Str) : List Todo → Option Todo
  | [] => none
  | t :: rest =>
    if ((depsF t).filter (fun d => !(cids.contains d))).isEmpty then some t
    else firstEligible cids rest

/-- The completed-id set of lines 219–221: `issue_id` of every completed
todo, with falsy values discarded.  A bracket-list `issue_id` stays in the
JS `Set` but can never equal a string dependency, so dropping it is
observationally faithful. -/
def completedIds (files : List (Str × Str)) : List Str :=
  (listTodos files (some (S ("completed")))).filterMap
    (fun t =>
      match fmGet t.frontmatter (S ("issue_id")) with
      | some (Yaml.str s) => if s = [] then none else some s
      | _ => none)

/-- `getNextTodo` (lines 217–234). -/
def getNextTodo (files : List (Str × Str)) : Option Todo :=
  firstEligible (completedIds files) (listTodos files (some (S ("pending"))))

/-! ## The file store and `blockTodo` (todo-utils.ts lines 267–292) -/

/-- The todos directory: an association of filenames to contents. -/
abbrev FS := List (Str × Str)

/-- Read a file (`readFile`): `none` models the thrown `ENOENT`. -/
def fsLookup (fs : FS) (n : Str) : Option Str :=
  (fs.find? (fun p => p.1 = n)).map (fun p => p.2)

/-- Write a file (`writeFile`): replace in place or create. -/
def fsWrite : FS → Str → Str → FS
  | [], n, c => [(n, c)]
  | (m, d) :: t, n, c => if m = n then (n, c) :: t else (m, d) :: fsWrite t n c

/-- Rename a file (`rename`): the content moves to the new name, silently
replacing any file already there (POSIX rename). -/
def fsRename (fs : FS) (src dst : Str) : FS :=
  match fsLookup fs src with
  | none => fs
  | some c => fsWrite (fs.filter (fun p => p.1 ≠ src)) dst c

/-- An observable file-system operation, recorded in program order. -/
inductive FsOp where
  | write (name content : Str)
  | rename (src dst : Str)
deriving DecidableEq

/-- Result of `blockTodo`: the updated store, the operation trace, the new
filename and the content that was written. -/
structure BlockResult where
  fs : FS
  trace : List FsOp
  newFilename : Str
  newContent : Str
deriving DecidableEq

/-- `blockTodo` (lines 267–292).  `now` stands for
`new Date().toISOString()`.  The front matter is rewritten with
status `blocked`, `blocked_at` and `blocked_reason`, the content is written
to the old path, and only then is the file renamed (and only if the name
changed). -/
def blockTodo (fs : FS) (filename reason now : Str) : Option BlockResult :=
  match fsLookup fs filename with
  | none => none
  | some content =>
    let fb := parseFrontmatter content
    let pf := parseFilename filename
    let fm2 := fmSet (fmSet (fmSet fb.1 (S ("status")) (Yaml.str (S ("blocked"))))
      (S ("blocked_at")) (Yaml.str now)) (S ("blocked_reason")) (Yaml.str reason)
    let newContent := mkContent fm2 fb.2
    let newFilename := buildFilename pf.number (S ("blocked")) pf.priority pf.slug
    let fs1 := fsWrite fs filename newContent
    if filename = newFilename then
      some ⟨fs1, [FsOp.write filename newContent], newFilename, newContent⟩
    else
      some ⟨fsRename fs1 filename newFilename,
        [FsOp.write filename newContent, FsOp.rename filename newFilename],
        newFilename, newContent⟩

/-! ## Creating todos (todo-utils.ts lines 295–373) -/

/-- `getNextNumber`'s running maximum (lines 295–309): the largest numeric
filename prefix among the `.md` files. -/
def maxTodoNumber (files : List Str) : Nat :=
  files.foldl
    (fun m f =>
      if (S (".md")).isSuffixOf f then max m (digitsVal (parseFilename f).number)
      else m) 0

/-- `getNextNumber` (lines 295–309): maximum existing number plus one,
zero-padded to three digits. -/
def getNextNumber (files : List Str) : Str :=
  padStart 3 ('0') (natToStr (maxTodoNumber files + 1))

/-- The `CreateOptions` interface (lines 51–60). -/
structure CreateOptions where
  priority : Str
  title : Str
  description : Option Str
  tags : Option (List Str)
  parentIssue : Option Str
  linearIssue : Option Str
  linearUrl : Option Str
  dependencies : Option (List Str)
deriving DecidableEq

/-- Worker for the slug collapse step: `inRun` records whether the previous
character was part of a non-alphanumeric run already replaced by `-`. -/
def collapseGo (inRun : Bool) : Str → Str
  | [] => []
  | c :: t =>
    if c.isLower ∨ c.isDigit then c :: collapseGo false t
    else if inRun then collapseGo true t
    else '-' :: collapseGo true t

/-- `replace(/[^a-z0-9]+/g, "-")` (line 318): every maximal run of
characters outside `[a-z0-9]` becomes a single `-`. -/
def collapseNonAlnum (s : Str) : Str := collapseGo false s

/-- Remove one leading dash (the `^-` alternative). -/
def stripLeadingDash : Str → Str
  | c :: t => if c = ('-') then t else c :: t
  | [] => []

/-- Remove one trailing dash (the `-$` alternative). -/
def stripTrailingDash (s : Str) : Str :=
  match s.getLast? with
  | some c => if c = '-' then s.dropLast else s
  | none => s

/-- `replace(/^-|-$/g, "")` (line 319): remove one leading and one trailing
dash. -/
def trimDashes (s : Str) : Str := stripTrailingDash (stripLeadingDash s)

/-- The slug derivation of lines 316–320: lowercase, collapse
non-alphanumeric runs to `-`, trim one dash at each end, truncate to 50
characters. -/
def slugify (title : Str) : Str :=
  ((trimDashes (collapseNonAlnum (lowerStr title)))).take 50

/-- Result of `createTodo`: the new filename, front matter and content. -/
structure CreateResult where
  filename : Str
  fm : Fm
  content : Str
deriving DecidableEq

/-- The markdown body template of lines 344–359. -/
def createBody (o : CreateOptions) : Str :=
  S ("\n# ") ++ o.title ++ S ("\n\n## Problem Statement\n\n")
    ++ (o.description.getD (S ("[To be defined]"))) ++ S ("\n\n")
    ++ (match o.parentIssue with
        | some pi => S ("## Origin\n\nCreated as follow-up from todo ") ++ pi
            ++ S (" during code review.\n")
        | none => [])
    ++ S ("## Acceptance Criteria\n\n- [ ] [Define acceptance criteria]\n\n## Notes\n\n[Add implementation notes here]\n")

/-- `createTodo` (lines 312–373): allocate the next number, derive the slug,
build the `pending` filename and front matter (dependencies are copied
verbatim when non-empty) and write the file.  There is no self-dependency
check anywhere in the function or in `parseCreateArgs`. -/
def createTodo (files : List Str) (o : CreateOptions) : CreateResult :=
  let number := getNextNumber files
  let slug := slugify o.title
  let filename := buildFilename number (S ("pending")) o.priority slug
  let fm : Fm :=
    [(S ("status"), Yaml.str (S ("pending"))),
     (S ("priority"), Yaml.str o.priority),
     (S ("issue_id"), Yaml.str number),
     (S ("tags"), Yaml.arr (o.tags.getD []))]
    ++ (match o.linearIssue with
        | some li => [(S ("linear_issue"), Yaml.str li)]
        | none => [])
    ++ (match o.linearUrl with
        | some lu => [(S ("linear_url"), Yaml.str lu)]
        | none => [])
    ++ (match o.dependencies with
        | some (d :: ds) => [(S ("dependencies"), Yaml.arr (d :: ds))]
        | _ => [])
  ⟨filename, fm, mkContent fm (createBody o)⟩

/-! ## Worktrees (worktree-utils.ts) -/

/-- One entry of `git worktree list --porcelain` as parsed by
`listWorktrees` (lines 55–83). -/
structure WorktreeInfo where
  name : Str
  path : Str
  branch : Str
  commit : Str
  isRalph : Bool
deriving DecidableEq

/-- `listWorktrees` (lines 55–83): split the porcelain output on blank
lines, keep non-empty entries, read the `worktree `, `HEAD ` and `branch `
lines, take the last path component as the name, and keep `ralph-` prefixed
entries unless `all` is set. -/
def listWorktrees (output : Str) (all : Bool) : List WorktreeInfo :=
  ((splitOnSeq (S ("\n\n")) output).filter (fun e => e ≠ [])).filterMap
    (fun entry =>
      let lines := splitOnChar ('\n') entry
      match lines.find? (fun l => (S ("worktree ")).isPrefixOf l) with
      | none => none
      | some pathLine =>
        let path := replaceFirst (S ("worktree ")) pathLine
        let name := (splitOnChar ('/') path).getLastD []
        let commit :=
          ((lines.find? (fun l => (S ("HEAD ")).isPrefixOf l)).map
            (replaceFirst (S ("HEAD ")))).getD []
        let branch :=
          ((lines.find? (fun l => (S ("branch ")).isPrefixOf l)).map
            (replaceFirst (S ("branch refs/heads/")))).getD []
        let isR := (S ("ralph-")).isPrefixOf name
        if all || isR then some ⟨name, path, branch, commit, isR⟩ else none)

/-- The abstract git repository state seen by `createWorktree`: the names of
the registered worktrees (what `git worktree list` reports) and the existing
branch names. -/
structure GitState where
  wnames : List Str
  branches : List Str
deriving DecidableEq

/-- `join(WORKTREES_DIR, name)` (line 92), with the repository root
abbreviated. -/
def worktreePathOf (name : Str) : Str := S (".worktrees/") ++ name

/-- Result of a worktree command (`CommandResult`, lines 35–39). -/
structure CmdRes where
  success : Bool
  error : Option Str
  data : Option (Str × Str × Str)
deriving DecidableEq

/-- `createWorktree` (lines 88–129).  The name check uses
`listWorktrees(true)` — abstracted as `st.wnames`.  `git worktree add
"path" -b "branch" main` fails without creating anything when the branch
already exists (git reports `a branch named '<b>' already exists`), which
the `catch` turns into a failure result.  `installOk` abstracts the
`bun install` step; when it throws the worktree has already been created
and remains. -/
def createWorktree (st : GitState) (name branch : Str) (installOk : Bool) :
    CmdRes × GitState :=
  if st.wnames.contains name then
    (⟨false, some (S ("Worktree ") ++ name ++ S (" already exists")), none⟩, st)
  else if st.branches.contains branch then
    (⟨false, some (S ("Failed to create worktree: a branch named ") ++ branch
      ++ S (" already exists")), none⟩, st)
  else
    let st2 : GitState := ⟨st.wnames ++ [name], st.branches ++ [branch]⟩
    if installOk then
      (⟨true, none, some (name, worktreePathOf name, branch)⟩, st2)
    else
      (⟨false, some (S ("Failed to create worktree: bun install failed")), none⟩, st2)

/-- Result of `cleanupWorktrees` (lines 244–247). -/
structure CleanupRes where
  success : Bool
  cleaned : List Str
  kept : List Str
  errors : List Str
deriving DecidableEq

/-- `cleanupWorktrees` (lines 216–248): iterate over `listWorktrees()`
(ralph-only), delete each `ralph-` worktree unconditionally — the extracted
Linear issue id is computed and never used, and no external status is
consulted — collecting successes in `cleaned` and failures in `errors`;
`kept` is never pushed to.  `delOk`/`delErr` abstract the outcome of each
`deleteWorktree` call (lines 134–182). -/
def cleanupWorktrees (output : Str) (delOk : Str → Bool) (delErr : Str → Str) :
    CleanupRes :=
  let wts := listWorktrees output false
  let acc := wts.foldl
    (fun (acc : List Str × List Str) w =>
      if !w.isRalph then acc
      else if delOk w.name then (acc.1 ++ [w.name], acc.2)
      else (acc.1, acc.2 ++ [w.name ++ S (": ") ++ delErr w.name]))
    ([], [])
  ⟨acc.2.isEmpty, acc.1, [], acc.2⟩

/-! ## Well-typedness predicates and the spec-side sort key -/

/-- The `linear_cycle` field is absent or a scalar (the declared type
`linear_cycle?: string`); a bracket-list would make the sort throw. -/
def cycleOk (t : Todo) : Bool :=
  match cycVal t with
  | some (Yaml.arr _) => false
  | _ => true

/-- The `priority` field is one of the three declared tiers. -/
def prioOk (t : Todo) : Bool := (prioRank t).isSome

/-- The `dependencies` field is absent or a bracket-list (the declared type
`dependencies?: string[]`); a scalar would make `getNextTodo` throw. -/
def depsOk (t : Todo) : Bool :=
  match fmGet t.frontmatter (S ("dependencies")) with
  | some (Yaml.str _) => false
  | _ => true

/-- The cycle as an optional scalar (defined under `cycleOk`). -/
def cycStrOf (t : Todo) : Option Str :=
  match cycVal t with
  | some (Yaml.str s) => some s
  | _ => none

/-- Group rank exactly as the spec words it: 1 for a non-empty group
containing `current` case-insensitively, 2 for any other non-empty group,
3 for an empty or absent group. -/
def specGroupRank (c : Option Str) : Nat :=
  match c with
  | some g =>
    if g ≠ [] ∧ containsSeq (S ("current")) (lowerStr g) = true then 1
    else if g ≠ [] then 2
    else 3
  | none => 3

/-- Priority rank as the spec words it: the tiers p1/p2/p3 map to 1/2/3. -/
def specPrioRank (t : Todo) : Nat :=
  match fmGet t.frontmatter (S ("priority")) with
  | some (Yaml.str s) =>
    if s = S ("p1") then 1
    else if s = S ("p2") then 2
    else if s = S ("p3") then 3
    else 0
  | _ => 0

/-- The numeric id of an item. -/
def natNum (t : Todo) : Nat := digitsVal t.number

/-- The spec's sort key `(groupRank, priorityRank, id)`. -/
def specKey (t : Todo) : Nat × Nat × Nat :=
  (specGroupRank (cycStrOf t), specPrioRank t, natNum t)

/-- Lexicographic order on the sort key, ascending. -/
abbrev lexLe3 (a b : Nat × Nat × Nat) : Prop :=
  a.1 < b.1 ∨ (a.1 = b.1 ∧ (a.2.1 < b.2.1 ∨ (a.2.1 = b.2.1 ∧ a.2.2 ≤ b.2.2)))

/-! ## Invariants used by the serialisation round trip -/

/-- A key as produced by `parseLine`: colon-free, newline-free, trimmed. -/
abbrev goodKey (k : Str) : Prop := (':') ∉ k ∧ ('\n') ∉ k ∧ trim k = k

/-- A value whose serialised form stays on one line. -/
def goodVal : Yaml → Prop
  | Yaml.str s => ('\n') ∉ s
  | Yaml.arr l => ∀ e ∈ l, ('\n') ∉ e

/-- Every entry of the record has a good key and a good value. -/
abbrev goodFm (fm : Fm) : Prop := ∀ kv ∈ fm, goodKey kv.1 ∧ goodVal kv.2

/-- The record keys are pairwise distinct. -/
abbrev fmNodup (fm : Fm) : Prop := (fm.map Prod.fst).Nodup

/-- A scalar value that survives serialise-then-parse unchanged: non-empty,
newline-free, and either containing a space (so it is serialised quoted) or
trimmed and not starting with `[` or `"`. -/
abbrev goodStrVal (v : Str) : Prop :=
  v ≠ [] ∧ ('\n') ∉ v ∧
    (' ' ∈ v ∨ (trim v = v ∧ v.head? ≠ some ('[') ∧ v.head? ≠ some ('"')))

/-- A well-formed filename number segment: a non-empty digit run. -/
abbrev wfNumber (n : Str) : Prop := n ≠ [] ∧ ∀ c ∈ n, c.isDigit = true

/-- A well-formed filename status segment: a non-empty `\w` run. -/
abbrev wfStatus (s : Str) : Prop := s ≠ [] ∧ ∀ c ∈ s, isWordChar c = true

/-- A well-formed priority segment: one of the three tiers. -/
abbrev wfPriority (p : Str) : Prop := p = S ("p1") ∨ p = S ("p2") ∨ p = S ("p3")

/-! ## Concrete inputs used by witnesses and counterexamples -/

/-- Three well-formed todo files spanning the group/priority combinations. -/
def ex1Files : List (Str × Str) :=
  [(S ("003-pending-p2-c.md"),
    S ("---\nstatus: pending\npriority: p2\nlinear_cycle: \"Cycle 9 current\"\n---\n# C\nx")),
   (S ("001-pending-p1-a.md"),
    S ("---\nstatus: pending\npriority: p1\n---\n# A\nx")),
   (S ("002-pending-p3-b.md"),
    S ("---\nstatus: pending\npriority: p3\nlinear_cycle: Next\n---\n# B\nx"))]

/-- A completed item `001` and a pending item `002` depending on it. -/
def ex2Files : List (Str × Str) :=
  [(S ("001-completed-p1-a.md"),
    S ("---\nstatus: completed\npriority: p1\nissue_id: 001\n---\n# A\nx")),
   (S ("002-pending-p1-b.md"),
    S ("---\nstatus: pending\npriority: p1\nissue_id: 002\ndependencies: [\"001\"]\n---\n# B\nx"))]

/-- A pending item about to be blocked. -/
def ex3Fs : FS :=
  [(S ("001-pending-p1-fix.md"),
    S ("---\nstatus: pending\npriority: p1\nissue_id: 001\n---\n# Fix\nbody"))]

/-- A creation spec whose dependency list names the id the new item will
receive (`001` on an empty directory). -/
def ex4Opts : CreateOptions :=
  ⟨S ("p1"), S ("Self dep"), none, none, none, none, none, some [S ("001")]⟩

/-- One well-formed pending file with no `linear_cycle` field at all. -/
def ex5Files : List (Str × Str) :=
  [(S ("001-pending-p1-a.md"),
    S ("---\nstatus: pending\npriority: p1\n---\n# A\nx"))]

/-- One `.md` file whose front-matter block is missing entirely. -/
def ex6Files : List (Str × Str) :=
  [(S ("001-pending-p1-a.md"), S ("# A\nno front matter here"))]

/-- A git state with one registered worktree and one branch. -/
def ex7St : GitState :=
  ⟨[S ("ralph-HOL-1")], [S ("feature/x")]⟩

/-! ## String lemmas -/

theorem splitOnChar_ne_nil (c : Char) (s : Str) : splitOnChar c s ≠ [] := by
  induction s with
  | nil => simp [splitOnChar]
  | cons x xs ih =>
    cases h : splitOnChar c xs with
    | nil => exact absurd h ih
    | cons m ms =>
      simp only [splitOnChar, h]
      split <;> simp

theorem noChar_of_mem_splitOnChar (c : Char) (s : Str) :
    ∀ l ∈ splitOnChar c s, c ∉ l := by
  induction s with
  | nil => simp [splitOnChar]
  | cons x xs ih =>
    intro l hl
    cases h : splitOnChar c xs with
    | nil => exact absurd h (splitOnChar_ne_nil c xs)
    | cons m ms =>
      rw [h] at ih
      simp only [splitOnChar, h] at hl
      by_cases hx : x = c
      · subst hx
        simp only [if_pos rfl] at hl
        rcases List.mem_cons.mp hl with hl | hl
        · simp [hl]
        · exact ih l hl
      · simp only [if_neg hx] at hl
        rcases List.mem_cons.mp hl with hl | hl
        · subst hl
          intro hmem
          rcases List.mem_cons.mp hmem with h1 | h1
          · exact hx h1.symm
          · exact ih m (List.mem_cons_self m ms) h1
        · exact ih l (List.mem_cons_of_mem m hl)

theorem mem_of_mem_splitOnChar (c x : Char) (s : Str) :
    ∀ l ∈ splitOnChar c s, x ∈ l → x ∈ s := by
  induction s with
  | nil => simp [splitOnChar]
  | cons y ys ih =>
    intro l hl hx
    cases h : splitOnChar c ys with
    | nil => exact absurd h (splitOnChar_ne_nil c ys)
    | cons m ms =>
      rw [h] at ih
      simp only [splitOnChar, h] at hl
      by_cases hy : y = c
      · subst hy
        simp only [if_pos rfl] at hl
        rcases List.mem_cons.mp hl with hl | hl
        · simp [hl] at hx
        · exact List.mem_cons_of_mem y (ih l hl hx)
      · simp only [if_neg hy] at hl
        rcases List.mem_cons.mp hl with hl | hl
        · subst hl
          rcases List.mem_cons.mp hx with h1 | h1
          · exact h1 ▸ List.mem_cons_self y ys
          · exact List.mem_cons_of_mem y (ih m (List.mem_cons_self m ms) h1)
        · exact List.mem_cons_of_mem y (ih l (List.mem_cons_of_mem m hl) hx)

theorem joinWith_cons_cons (c : Char) (a b : Str) (t : List Str) :
    joinWith c (a :: b :: t) = a ++ c :: joinWith c (b :: t) := rfl

theorem joinWith_splitOnChar (c : Char) (s : Str) :
    joinWith c (splitOnChar c s) = s := by
  induction s with
  | nil => simp [splitOnChar, joinWith]
  | cons x xs ih =>
    cases h : splitOnChar c xs with
    | nil => exact absurd h (splitOnChar_ne_nil c xs)
    | cons m ms =>
      rw [h] at ih
      simp only [splitOnChar, h]
      by_cases hx : x = c
      · subst hx
        simp [joinWith_cons_cons, ih]
      · simp only [if_neg hx]
        rcases ms with _ | ⟨m2, ms2⟩
        · simp only [joinWith] at ih ⊢
          rw [ih]
        · simp only [joinWith_cons_cons] at ih ⊢
          rw [List.cons_append, ih]

theorem splitOnChar_of_noChar (c : Char) (s : Str) (h : c ∉ s) :
    splitOnChar c s = [s] := by
  induction s with
  | nil => simp [splitOnChar]
  | cons x xs ih =>
    have hx : x ≠ c := fun hc => h (hc ▸ List.mem_cons_self x xs)
    have hxs : c ∉ xs := fun hc => h (List.mem_cons_of_mem x hc)
    simp only [splitOnChar, ih hxs]
    simp [hx]

theorem splitOnChar_append_cons (c : Char) (a b : Str) (h : c ∉ a) :
    splitOnChar c (a ++ c :: b) = a :: splitOnChar c b := by
  induction a with
  | nil =>
    simp only [List.nil_append, splitOnChar]
    cases hb : splitOnChar c b with
    | nil => exact absurd hb (splitOnChar_ne_nil c b)
    | cons m ms => simp
  | cons x xs ih =>
    have hx : x ≠ c := fun hc => h (hc ▸ List.mem_cons_self x xs)
    have hxs : c ∉ xs := fun hc => h (List.mem_cons_of_mem x hc)
    rw [List.cons_append]
    simp only [splitOnChar, ih hxs]
    simp [hx]

theorem splitOnChar_joinWith (c : Char) (ls : List Str)
    (h : ∀ l ∈ ls, c ∉ l) (hne : ls ≠ []) :
    splitOnChar c (joinWith c ls) = ls := by
  induction ls with
  | nil => exact absurd rfl hne
  | cons l t ih =>
    rcases t with _ | ⟨l2, t2⟩
    · simp only [joinWith]
      exact splitOnChar_of_noChar c l (h l (List.mem_cons_self l []))
    · rw [joinWith_cons_cons, splitOnChar_append_cons c l _ (h l (List.mem_cons_self _ _))]
      rw [ih (fun x hx => h x (List.mem_cons_of_mem l hx)) (by simp)]

theorem joinWith_append (c : Char) (xs ys : List Str) (hx : xs ≠ []) (hy : ys ≠ []) :
    joinWith c (xs ++ ys) = joinWith c xs ++ c :: joinWith c ys := by
  induction xs with
  | nil => exact absurd rfl hx
  | cons a t ih =>
    rcases t with _ | ⟨b, t2⟩
    · rcases ys with _ | ⟨y, yt⟩
      · exact absurd rfl hy
      · simp [joinWith, joinWith_cons_cons]
    · have ih2 := ih (by simp)
      rw [List.cons_append] at ih2
      calc joinWith c ((a :: b :: t2) ++ ys)
          = a ++ c :: joinWith c (b :: (t2 ++ ys)) := joinWith_cons_cons c a b (t2 ++ ys)
        _ = a ++ c :: (joinWith c (b :: t2) ++ c :: joinWith c ys) := by rw [ih2]
        _ = (a ++ c :: joinWith c (b :: t2)) ++ c :: joinWith c ys := by simp
        _ = joinWith c (a :: b :: t2) ++ c :: joinWith c ys := by rw [joinWith_cons_cons]

theorem mem_trimL (s : Str) (x : Char) (h : x ∈ trimL s) : x ∈ s :=
  (List.dropWhile_sublist _).subset h

theorem mem_trimR (s : Str) (x : Char) (h : x ∈ trimR s) : x ∈ s := by
  unfold trimR at h
  rw [List.mem_reverse] at h
  have h2 : x ∈ s.reverse := (List.dropWhile_sublist _).subset h
  rwa [List.mem_reverse] at h2

theorem mem_trim (s : Str) (x : Char) (h : x ∈ trim s) : x ∈ s :=
  mem_trimL s x (mem_trimR _ x h)

theorem dropWhile_head_false (p : Char → Bool) (l : Str) (x : Char) (t : Str)
    (h : l.dropWhile p = x :: t) : p x = false := by
  induction l with
  | nil => simp at h
  | cons y ys ih =>
    rw [List.dropWhile_cons] at h
    by_cases hy : p y
    · rw [if_pos hy] at h
      exact ih h
    · rw [if_neg hy] at h
      cases h
      exact Bool.of_not_eq_true hy

theorem dropWhile_self_of_head (p : Char → Bool) (l : Str)
    (h : ∀ x, l.head? = some x → p x = false) : l.dropWhile p = l := by
  cases l with
  | nil => rfl
  | cons x t =>
    rw [List.dropWhile_cons, if_neg]
    simp [h x rfl]

theorem dropWhile_idem (p : Char → Bool) (l : Str) :
    (l.dropWhile p).dropWhile p = l.dropWhile p := by
  apply dropWhile_self_of_head
  intro x hx
  cases h : l.dropWhile p with
  | nil => rw [h] at hx; simp at hx
  | cons y t =>
    rw [h] at hx
    simp only [List.head?] at hx
    cases hx
    exact dropWhile_head_false p l x t h

theorem trimR_pre (s : Str) : trimR s <+: s := by
  unfold trimR
  have h : List.dropWhile Char.isWhitespace s.reverse <:+ s.reverse :=
    List.dropWhile_suffix _
  have h2 := List.reverse_prefix.mpr h
  rwa [List.reverse_reverse] at h2

theorem trimR_idem (s : Str) : trimR (trimR s) = trimR s := by
  unfold trimR
  rw [List.reverse_reverse, dropWhile_idem]

theorem trim_idem (s : Str) : trim (trim s) = trim s := by
  unfold trim
  have h1 : trimL (trimL s) = trimL s := dropWhile_idem _ s
  have h2 : trimL (trimR (trimL s)) = trimR (trimL s) := by
    apply dropWhile_self_of_head
    intro x hx
    cases h : trimR (trimL s) with
    | nil => rw [h] at hx; simp at hx
    | cons y t =>
      rw [h] at hx
      simp only [List.head?] at hx
      cases hx
      rcases trimR_pre (trimL s) with ⟨u, hu⟩
      rw [h] at hu
      exact dropWhile_head_false _ s x _ hu.symm
  rw [h2, trimR_idem]

theorem trim_cons_ws (s : Str) (x : Char) (h : x.isWhitespace = true) :
    trim (x :: s) = trim s := by
  unfold trim trimL
  rw [List.dropWhile_cons, if_pos (by simp [h])]

theorem trim_eq_self (s : Str)
    (h1 : ∀ x, s.head? = some x → x.isWhitespace = false)
    (h2 : ∀ x, s.getLast? = some x → x.isWhitespace = false) :
    trim s = s := by
  unfold trim
  rw [show trimL s = s from dropWhile_self_of_head _ s h1]
  unfold trimR
  rw [dropWhile_self_of_head, List.reverse_reverse]
  intro x hx
  rw [List.head?_reverse] at hx
  exact h2 x hx

theorem breakAtChar_append (c : Char) (a b : Str) (h : c ∉ a) :
    breakAtChar c (a ++ c :: b) = some (a, b) := by
  induction a with
  | nil => simp [breakAtChar]
  | cons x xs ih =>
    have hx : x ≠ c := fun hc => h (hc ▸ List.mem_cons_self x xs)
    have hxs : c ∉ xs := fun hc => h (List.mem_cons_of_mem x hc)
    rw [List.cons_append]
    simp only [breakAtChar, if_neg hx, ih hxs, Option.map_some']

theorem breakAtChar_eq_some (c : Char) (s : Str) (pre post : Str)
    (h : breakAtChar c s = some (pre, post)) : s = pre ++ c :: post ∧ c ∉ pre := by
  induction s generalizing pre post with
  | nil => simp [breakAtChar] at h
  | cons x xs ih =>
    simp only [breakAtChar] at h
    by_cases hx : x = c
    · rw [if_pos hx] at h
      cases h
      subst hx
      simp
    · rw [if_neg hx] at h
      cases hp : breakAtChar c xs with
      | none => rw [hp] at h; simp at h
      | some q =>
        rw [hp] at h
        rcases q with ⟨q1, q2⟩
        simp only [Option.map_some', Option.some.injEq, Prod.mk.injEq] at h
        rcases h with ⟨h1, h2⟩
        have hq := ih q1 q2 hp
        subst h1
        subst h2
        constructor
        · rw [List.cons_append, ← hq.1]
        · intro hc
          rcases List.mem_cons.mp hc with h3 | h3
          · exact hx h3.symm
          · exact hq.2 h3

theorem takeWhile_all_append (p : Char → Bool) (a : Str) (x : Char) (b : Str)
    (ha : ∀ y ∈ a, p y = true) (hx : p x = false) :
    (a ++ x :: b).takeWhile p = a := by
  induction a with
  | nil => simp [List.takeWhile_cons, hx]
  | cons y ys ih =>
    rw [List.cons_append, List.takeWhile_cons, if_pos (by simp [ha y (List.mem_cons_self y ys)])]
    rw [ih (fun z hz => ha z (List.mem_cons_of_mem y hz))]

/-! ## Record lemmas -/

theorem fmGet_cons_pos (k : Str) (v : Yaml) (t : Fm) :
    fmGet ((k, v) :: t) k = some v := by
  unfold fmGet
  rw [List.find?_cons_of_pos _ (by simp)]
  rfl

theorem fmGet_cons_neg (m k : Str) (w : Yaml) (t : Fm) (h : m ≠ k) :
    fmGet ((m, w) :: t) k = fmGet t k := by
  unfold fmGet
  rw [List.find?_cons_of_neg _ (by simp [h])]

theorem fmGet_fmSet_self (fm : Fm) (k : Str) (v : Yaml) :
    fmGet (fmSet fm k v) k = some v := by
  induction fm with
  | nil => exact fmGet_cons_pos k v []
  | cons kv t ih =>
    rcases kv with ⟨m, w⟩
    simp only [fmSet]
    by_cases hm : m = k
    · rw [if_pos hm]
      exact fmGet_cons_pos k v t
    · rw [if_neg hm]
      rw [fmGet_cons_neg m k w _ hm]
      exact ih

theorem fmGet_fmSet_ne (fm : Fm) (k k2 : Str) (v : Yaml) (h : k2 ≠ k) :
    fmGet (fmSet fm k v) k2 = fmGet fm k2 := by
  induction fm with
  | nil =>
    simp only [fmSet]
    rw [fmGet_cons_neg k k2 v [] (fun hc => h hc.symm)]
  | cons kv t ih =>
    rcases kv with ⟨m, w⟩
    simp only [fmSet]
    by_cases hm : m = k
    · rw [if_pos hm]
      subst hm
      rw [fmGet_cons_neg m k2 v t (fun hc => h hc.symm),
        fmGet_cons_neg m k2 w t (fun hc => h hc.symm)]
    · rw [if_neg hm]
      by_cases hm2 : m = k2
      · subst hm2
        rw [fmGet_cons_pos m w t, fmGet_cons_pos m w (fmSet t k v)]
      · rw [fmGet_cons_neg m k2 w _ hm2, fmGet_cons_neg m k2 w t hm2]
        exact ih

theorem mem_fmSet (fm : Fm) (k : Str) (v : Yaml) (kv : Str × Yaml)
    (h : kv ∈ fmSet fm k v) : kv ∈ fm ∨ kv = (k, v) := by
  induction fm with
  | nil => simp [fmSet] at h; simp [h]
  | cons mw t ih =>
    rcases mw with ⟨m, w⟩
    simp only [fmSet] at h
    by_cases hm : m = k
    · rw [if_pos hm] at h
      rcases List.mem_cons.mp h with h1 | h1
      · exact Or.inr h1
      · exact Or.inl (List.mem_cons_of_mem _ h1)
    · rw [if_neg hm] at h
      rcases List.mem_cons.mp h with h1 | h1
      · exact Or.inl (h1 ▸ List.mem_cons_self _ _)
      · rcases ih h1 with h2 | h2
        · exact Or.inl (List.mem_cons_of_mem _ h2)
        · exact Or.inr h2

theorem fmSet_mem_self (fm : Fm) (k : Str) (v : Yaml) : (k, v) ∈ fmSet fm k v := by
  induction fm with
  | nil => simp [fmSet]
  | cons mw t ih =>
    rcases mw with ⟨m, w⟩
    simp only [fmSet]
    by_cases hm : m = k
    · rw [if_pos hm]; exact List.mem_cons_self _ _
    · rw [if_neg hm]; exact List.mem_cons_of_mem _ ih

theorem mem_fmSet_of_ne (fm : Fm) (k k2 : Str) (v w : Yaml)
    (h : (k2, w) ∈ fm) (hne : k2 ≠ k) : (k2, w) ∈ fmSet fm k v := by
  induction fm with
  | nil => simp at h
  | cons mw t ih =>
    rcases mw with ⟨m, u⟩
    simp only [fmSet]
    rcases List.mem_cons.mp h with h1 | h1
    · have hk2 : k2 = m := congrArg Prod.fst h1
      have hm : m ≠ k := by
        rw [← hk2]
        exact hne
      rw [if_neg hm]
      exact h1 ▸ List.mem_cons_self _ _
    · by_cases hm : m = k
      · rw [if_pos hm]
        exact List.mem_cons_of_mem _ h1
      · rw [if_neg hm]
        exact List.mem_cons_of_mem _ (ih h1)

theorem mem_keys_fmSet (fm : Fm) (k x : Str) (v : Yaml)
    (h : x ∈ (fmSet fm k v).map Prod.fst) : x ∈ fm.map Prod.fst ∨ x = k := by
  rw [List.mem_map] at h
  rcases h with ⟨kv, hkv, hx⟩
  rcases mem_fmSet fm k v kv hkv with h1 | h1
  · exact Or.inl (List.mem_map.mpr ⟨kv, h1, hx⟩)
  · subst h1
    exact Or.inr hx.symm

theorem fmNodup_fmSet (fm : Fm) (k : Str) (v : Yaml) (h : fmNodup fm) :
    fmNodup (fmSet fm k v) := by
  induction fm with
  | nil => simp [fmSet, fmNodup]
  | cons mw t ih =>
    rcases mw with ⟨m, w⟩
    simp only [fmNodup, List.map_cons, List.nodup_cons] at h
    by_cases hm : m = k
    · simp only [fmSet, if_pos hm, fmNodup, List.map_cons, List.nodup_cons]
      exact ⟨hm ▸ h.1, h.2⟩
    · simp only [fmSet, if_neg hm, fmNodup, List.map_cons, List.nodup_cons]
      refine ⟨?_, ih h.2⟩
      intro hc
      rcases mem_keys_fmSet t k m v hc with h1 | h1
      · exact h.1 h1
      · exact hm h1

theorem goodFm_fmSet (fm : Fm) (k : Str) (v : Yaml)
    (hfm : goodFm fm) (hk : goodKey k) (hv : goodVal v) : goodFm (fmSet fm k v) := by
  intro kv hkv
  rcases mem_fmSet fm k v kv hkv with h1 | h1
  · exact hfm kv h1
  · subst h1
    exact ⟨hk, hv⟩

theorem mem_of_fmGet (fm : Fm) (k : Str) (v : Yaml) (h : fmGet fm k = some v) :
    (k, v) ∈ fm := by
  unfold fmGet at h
  cases hf : fm.find? (fun kv => kv.1 = k) with
  | none => rw [hf] at h; simp at h
  | some kv =>
    rw [hf] at h
    simp only [Option.map_some', Option.some.injEq] at h
    have hmem := List.mem_of_find?_eq_some hf
    have hpred := List.find?_some hf
    rw [decide_eq_true_eq] at hpred
    rcases kv with ⟨k1, v1⟩
    cases h
    cases hpred
    exact hmem

/-! ## Parser invariants -/

theorem mem_dropEnds (s : Str) (x : Char) (h : x ∈ dropEnds s) : x ∈ s := by
  unfold dropEnds at h
  exact (List.drop_sublist 1 s).subset ((List.dropLast_sublist _).subset h)

theorem mem_stripTrailingQuote (s : Str) (x : Char)
    (h : x ∈ stripTrailingQuote s) : x ∈ s := by
  unfold stripTrailingQuote at h
  split at h
  · split at h
    · exact (List.dropLast_sublist _).subset h
    · exact h
  · exact h

theorem mem_stripLeadingQuote (s : Str) (x : Char)
    (h : x ∈ stripLeadingQuote s) : x ∈ s := by
  rcases s with _ | ⟨c, t⟩
  · simp [stripLeadingQuote] at h
  · simp only [stripLeadingQuote] at h
    split at h
    · exact List.mem_cons_of_mem c h
    · exact h

theorem mem_stripQuotesOnce (s : Str) (x : Char) (h : x ∈ stripQuotesOnce s) :
    x ∈ s :=
  mem_stripLeadingQuote s x (mem_stripTrailingQuote _ x h)

theorem parseLine_good (line : Str) (hline : ('\n') ∉ line) (k : Str) (v : Yaml)
    (h : parseLine line = some (k, v)) : goodKey k ∧ goodVal v := by
  cases hb : breakAtChar (':') line with
  | none => simp [parseLine, hb] at h
  | some p =>
    rcases p with ⟨pre, post⟩
    obtain ⟨hsplit, hpre⟩ := breakAtChar_eq_some (':') line pre post hb
    have hpre_mem : ∀ x, x ∈ pre → x ∈ line := by
      intro x hx
      rw [hsplit]
      exact List.mem_append_left _ hx
    have hpost_mem : ∀ x, x ∈ post → x ∈ line := by
      intro x hx
      rw [hsplit]
      exact List.mem_append_right _ (List.mem_cons_of_mem _ hx)
    have hgk : goodKey (trim pre) := by
      refine ⟨?_, ?_, trim_idem pre⟩
      · intro hx
        exact hpre (mem_trim _ _ hx)
      · intro hx
        exact hline (hpre_mem _ (mem_trim _ _ hx))
    have hvmem : ∀ x, x ∈ trim post → x ∈ line := by
      intro x hx
      exact hpost_mem _ (mem_trim _ _ hx)
    simp only [parseLine, hb] at h
    by_cases hv : trim post = []
    · rw [if_pos hv] at h
      simp at h
    · rw [if_neg hv] at h
      by_cases h1 : (trim post).head? = some ('[')
      · rw [if_pos h1] at h
        simp only [Option.some.injEq, Prod.mk.injEq] at h
        rcases h with ⟨hk, hv2⟩
        subst hk
        subst hv2
        refine ⟨hgk, ?_⟩
        intro e2 he2
        unfold parseArrBody at he2
        rw [List.mem_map] at he2
        rcases he2 with ⟨e, he, he2⟩
        intro hx
        rw [← he2] at hx
        have hx2 := mem_trim _ _ (mem_stripQuotesOnce _ _ hx)
        have hx3 := mem_of_mem_splitOnChar (',') ('\n') _ e he hx2
        exact hline (hvmem _ (mem_dropEnds _ _ hx3))
      · rw [if_neg h1] at h
        by_cases h2 : (trim post).head? = some ('"')
        · rw [if_pos h2] at h
          simp only [Option.some.injEq, Prod.mk.injEq] at h
          rcases h with ⟨hk, hv2⟩
          subst hk
          subst hv2
          refine ⟨hgk, ?_⟩
          intro hx
          exact hline (hvmem _ (mem_dropEnds _ _ hx))
        · rw [if_neg h2] at h
          simp only [Option.some.injEq, Prod.mk.injEq] at h
          rcases h with ⟨hk, hv2⟩
          subst hk
          subst hv2
          refine ⟨hgk, ?_⟩
          intro hx
          exact hline (hvmem _ hx)

theorem foldl_parseStep_good (lines : List Str) (fm0 : Fm)
    (h0 : goodFm fm0) (hl : ∀ l ∈ lines, ('\n') ∉ l) :
    goodFm (lines.foldl parseStep fm0) := by
  induction lines generalizing fm0 with
  | nil => exact h0
  | cons l t ih =>
    rw [List.foldl_cons]
    apply ih
    · unfold parseStep
      cases hp : parseLine l with
      | none => exact h0
      | some kv =>
        rcases kv with ⟨k, v⟩
        have hg := parseLine_good l (hl l (List.mem_cons_self _ _)) k v hp
        exact goodFm_fmSet fm0 k v h0 hg.1 hg.2
    · intro x hx
      exact hl x (List.mem_cons_of_mem _ hx)

theorem foldl_parseStep_nodup (lines : List Str) (fm0 : Fm) (h0 : fmNodup fm0) :
    fmNodup (lines.foldl parseStep fm0) := by
  induction lines generalizing fm0 with
  | nil => exact h0
  | cons l t ih =>
    rw [List.foldl_cons]
    apply ih
    unfold parseStep
    cases hp : parseLine l with
    | none => exact h0
    | some kv => exact fmNodup_fmSet fm0 kv.1 kv.2 h0

theorem parseYaml_good (y : Str) : goodFm (parseYaml y) := by
  unfold parseYaml
  apply foldl_parseStep_good
  · intro kv h
    simp at h
  · exact noChar_of_mem_splitOnChar ('\n') y

theorem parseYaml_nodup (y : Str) : fmNodup (parseYaml y) := by
  unfold parseYaml
  apply foldl_parseStep_nodup
  simp [fmNodup]

theorem goodFm_defaultFm : goodFm defaultFm := by
  intro kv hkv
  rcases List.mem_cons.mp hkv with h | h
  · subst h
    exact ⟨⟨by decide, by decide, by decide⟩, by intro hx; exact absurd hx (by decide)⟩
  · rcases List.mem_cons.mp h with h | h
    · subst h
      exact ⟨⟨by decide, by decide, by decide⟩, by intro hx; exact absurd hx (by decide)⟩
    · simp at h

theorem parseFrontmatter_good (content : Str) :
    goodFm (parseFrontmatter content).1 ∧ fmNodup (parseFrontmatter content).1 := by
  unfold parseFrontmatter
  split
  · split
    · split
      · exact ⟨parseYaml_good _, parseYaml_nodup _⟩
      · exact ⟨goodFm_defaultFm, show fmNodup defaultFm by decide⟩
    · exact ⟨goodFm_defaultFm, show fmNodup defaultFm by decide⟩
  · exact ⟨goodFm_defaultFm, show fmNodup defaultFm by decide⟩

/-! ## Serialisation round trip -/

theorem serLine_eq (k : Str) (v : Yaml) :
    serLine (k, v) = k ++ (':') :: (' ') :: serValue v := by
  simp [serLine, S]

theorem colon_mem_serLine (kv : Str × Yaml) : (':') ∈ serLine kv := by
  rcases kv with ⟨k, v⟩
  rw [serLine_eq]
  exact List.mem_append_right _ (List.mem_cons_self _ _)

theorem serLine_ne_dashes (kv : Str × Yaml) : serLine kv ≠ S ("---") := by
  intro h
  have hmem := colon_mem_serLine kv
  rw [h] at hmem
  exact absurd hmem (by decide)

theorem mem_joinWithS (sep : Str) (ls : List Str) (x : Char)
    (h : x ∈ joinWithS sep ls) : x ∈ sep ∨ ∃ l ∈ ls, x ∈ l := by
  induction ls with
  | nil => simp [joinWithS] at h
  | cons l t ih =>
    rcases t with _ | ⟨l2, t2⟩
    · exact Or.inr ⟨l, List.mem_cons_self _ _, h⟩
    · simp only [joinWithS] at h
      rcases List.mem_append.mp h with h1 | h1
      · rcases List.mem_append.mp h1 with h2 | h2
        · exact Or.inr ⟨l, List.mem_cons_self _ _, h2⟩
        · exact Or.inl h2
      · rcases ih h1 with h2 | ⟨m, hm, h2⟩
        · exact Or.inl h2
        · exact Or.inr ⟨m, List.mem_cons_of_mem _ hm, h2⟩

theorem serValue_noNL (v : Yaml) (h : goodVal v) : ('\n') ∉ serValue v := by
  intro hx
  cases v with
  | str s =>
    simp only [serValue] at hx
    split at hx
    · rcases List.mem_cons.mp hx with h1 | h1
      · exact absurd h1 (by decide)
      · rcases List.mem_append.mp h1 with h2 | h2
        · exact h h2
        · simp at h2
    · exact h hx
  | arr l =>
    simp only [serValue] at hx
    rcases List.mem_cons.mp hx with h1 | h1
    · exact absurd h1 (by decide)
    · rcases List.mem_append.mp h1 with h2 | h2
      · rcases mem_joinWithS _ _ _ h2 with h3 | ⟨m, hm, h3⟩
        · exact absurd h3 (by decide)
        · rw [List.mem_map] at hm
          rcases hm with ⟨e, he, hme⟩
          rw [← hme] at h3
          rcases List.mem_cons.mp h3 with h4 | h4
          · exact absurd h4 (by decide)
          · rcases List.mem_append.mp h4 with h5 | h5
            · exact h e he h5
            · simp at h5
      · simp at h2

theorem serLine_noNL (kv : Str × Yaml) (hk : goodKey kv.1) (hv : goodVal kv.2) :
    ('\n') ∉ serLine kv := by
  rcases kv with ⟨k, v⟩
  rw [serLine_eq]
  intro hx
  rcases List.mem_append.mp hx with h1 | h1
  · exact hk.2.1 h1
  · rcases List.mem_cons.mp h1 with h2 | h2
    · exact absurd h2 (by decide)
    · rcases List.mem_cons.mp h2 with h3 | h3
      · exact absurd h3 (by decide)
      · exact serValue_noNL v hv h3

theorem parseLine_serLine_key (k : Str) (v : Yaml) (hk : goodKey k) :
    parseLine (serLine (k, v)) = none ∨
      ∃ w, parseLine (serLine (k, v)) = some (k, w) := by
  rw [serLine_eq]
  have hbreak := breakAtChar_append (':') k ((' ') :: serValue v) hk.1
  simp only [parseLine, hbreak]
  rw [hk.2.2]
  by_cases hv : trim ((' ') :: serValue v) = []
  · rw [if_pos hv]
    exact Or.inl rfl
  · rw [if_neg hv]
    right
    split
    · exact ⟨_, rfl⟩
    · split
      · exact ⟨_, rfl⟩
      · exact ⟨_, rfl⟩

theorem parseLine_serLine_str (k va : Str) (hk : goodKey k) (hv : goodStrVal va) :
    parseLine (serLine (k, Yaml.str va)) = some (k, Yaml.str va) := by
  rw [serLine_eq]
  have hbreak := breakAtChar_append (':') k ((' ') :: serValue (Yaml.str va)) hk.1
  simp only [parseLine, hbreak]
  rw [hk.2.2]
  rcases hv with ⟨hne, hnl, hcase⟩
  by_cases hsp : (' ') ∈ va
  · have hser : serValue (Yaml.str va) = ('"') :: va ++ [('"')] := by
      simp [serValue, hsp]
    rw [hser]
    have htr : trim ((' ') :: (('"') :: va ++ [('"')])) = ('"') :: va ++ [('"')] := by
      rw [trim_cons_ws _ _ (by decide)]
      apply trim_eq_self
      · intro x hx
        simp only [List.head?] at hx
        cases hx
        decide
      · intro x hx
        rw [show (('"') :: va ++ [('"')]) = (('"') :: va) ++ [('"')] from rfl,
          List.getLast?_concat] at hx
        cases hx
        decide
    rw [htr]
    rw [if_neg (by simp), if_neg (by simp), if_pos (by simp)]
    have hde : dropEnds (('"') :: va ++ [('"')]) = va := by
      simp [dropEnds]
    rw [hde]
  · have hser : serValue (Yaml.str va) = va := by
      simp [serValue, hsp]
    rw [hser]
    have htr : trim ((' ') :: va) = va := by
      rw [trim_cons_ws _ _ (by decide)]
      rcases hcase with hcase | hcase
      · exact absurd hcase hsp
      · exact hcase.1
    rw [htr]
    rcases hcase with hcase | hcase
    · exact absurd hcase hsp
    · rw [if_neg hne, if_neg (by simp [hcase.2.1]), if_neg (by simp [hcase.2.2])]

theorem joinWith_cons_ne (c : Char) (a : Str) (t : List Str) (ht : t ≠ []) :
    joinWith c (a :: t) = a ++ c :: joinWith c t := by
  rcases t with _ | ⟨b, t2⟩
  · exact absurd rfl ht
  · exact joinWith_cons_cons c a b t2

theorem findDelimGo_append (xs ys : List Str)
    (hxs : ∀ x ∈ xs, x ≠ S ("---")) (hys : ys ≠ []) :
    findDelimGo (xs ++ S ("---") :: ys) = some (xs, ys) := by
  induction xs with
  | nil =>
    simp only [List.nil_append, findDelimGo]
    simp [hys]
  | cons x xt ih =>
    rw [List.cons_append]
    simp only [findDelimGo]
    rw [if_neg (by simp [hxs x (List.mem_cons_self _ _)])]
    rw [ih (fun z hz => hxs z (List.mem_cons_of_mem _ hz))]
    rfl

theorem parseFrontmatter_mkContent (fm : Fm) (body : Str)
    (hgood : goodFm fm) (hne : fm ≠ []) :
    parseFrontmatter (mkContent fm body) =
      ((fm.map serLine).foldl parseStep [], body) := by
  have hserNL : ∀ l ∈ fm.map serLine, ('\n') ∉ l := by
    intro l hl
    rw [List.mem_map] at hl
    rcases hl with ⟨kv, hkv, hlk⟩
    rw [← hlk]
    exact serLine_noNL kv (hgood kv hkv).1 (hgood kv hkv).2
  have hserNeNil : fm.map serLine ≠ [] := by
    simp [hne]
  have hbodyNL : ∀ l ∈ splitOnChar ('\n') body, ('\n') ∉ l :=
    noChar_of_mem_splitOnChar ('\n') body
  have hbodyNeNil : splitOnChar ('\n') body ≠ [] := splitOnChar_ne_nil ('\n') body
  have hlines : mkContent fm body =
      joinWith ('\n') (S ("---") :: (fm.map serLine ++ S ("---") :: splitOnChar ('\n') body)) := by
    rw [joinWith_cons_ne _ _ _ (by simp)]
    rw [joinWith_append ('\n') (fm.map serLine) _ hserNeNil (by simp)]
    rw [joinWith_cons_ne _ _ _ hbodyNeNil]
    rw [joinWith_splitOnChar ('\n') body]
    unfold mkContent serializeFrontmatter
    simp [S]
  have hsplit : splitOnChar ('\n') (mkContent fm body) =
      S ("---") :: (fm.map serLine ++ S ("---") :: splitOnChar ('\n') body) := by
    rw [hlines]
    apply splitOnChar_joinWith
    · intro l hl
      rcases List.mem_cons.mp hl with h1 | h1
      · subst h1
        decide
      · rcases List.mem_append.mp h1 with h2 | h2
        · exact hserNL l h2
        · rcases List.mem_cons.mp h2 with h3 | h3
          · subst h3
            decide
          · exact hbodyNL l h3
    · simp
  rcases hfm : fm.map serLine with _ | ⟨l0, lrest⟩
  · exact absurd hfm hserNeNil
  · unfold parseFrontmatter
    rw [hsplit, hfm]
    simp only [List.cons_append]
    rw [if_pos trivial]
    have hdelim : findDelimGo (lrest ++ S ("---") :: splitOnChar ('\n') body) =
        some (lrest, splitOnChar ('\n') body) := by
      apply findDelimGo_append
      · intro x hx
        have hx2 : x ∈ fm.map serLine := by
          rw [hfm]
          exact List.mem_cons_of_mem _ hx
        rw [List.mem_map] at hx2
        rcases hx2 with ⟨kv, _, hkv⟩
        rw [← hkv]
        exact serLine_ne_dashes kv
      · exact hbodyNeNil
    rw [hdelim]
    show (parseYaml (joinWith ('\n') (l0 :: lrest)), joinWith ('\n') (splitOnChar ('\n') body)) =
      (List.foldl parseStep [] (l0 :: lrest), body)
    rw [← hfm]
    unfold parseYaml
    rw [splitOnChar_joinWith ('\n') (fm.map serLine) hserNL hserNeNil]
    rw [joinWith_splitOnChar ('\n') body]

theorem foldl_parseStep_keyAbsent (lines : List Str) (fm0 : Fm) (k : Str)
    (h : ∀ l ∈ lines, ∀ w, parseLine l ≠ some (k, w)) :
    fmGet (lines.foldl parseStep fm0) k = fmGet fm0 k := by
  induction lines generalizing fm0 with
  | nil => rfl
  | cons l t ih =>
    rw [List.foldl_cons]
    rw [ih (parseStep fm0 l) (fun z hz => h z (List.mem_cons_of_mem _ hz))]
    unfold parseStep
    cases hp : parseLine l with
    | none => rfl
    | some kv =>
      rcases kv with ⟨k2, w⟩
      have hk2 : k2 ≠ k := by
        intro hc
        exact h l (List.mem_cons_self _ _) w (by rw [hp, hc])
      exact fmGet_fmSet_ne fm0 k2 k w (fun hc => hk2 hc.symm)

theorem reparse_fmGet (fm : Fm) (k : Str) (v : Yaml)
    (hnodup : fmNodup fm) (hgood : goodFm fm)
    (hmem : (k, v) ∈ fm)
    (hparse : parseLine (serLine (k, v)) = some (k, v)) :
    fmGet ((fm.map serLine).foldl parseStep []) k = some v := by
  rcases List.append_of_mem hmem with ⟨pre, post, hsplit⟩
  subst hsplit
  have hkeys : k ∉ (pre.map Prod.fst) ++ (post.map Prod.fst) := by
    have h1 : ((pre ++ (k, v) :: post).map Prod.fst).Nodup := hnodup
    rw [List.map_append, List.map_cons] at h1
    exact (List.nodup_cons.mp (List.nodup_middle.mp h1)).1
  have hpre : ∀ kv ∈ pre, kv.1 ≠ k := by
    intro kv hkv hc
    exact hkeys (List.mem_append_left _ (List.mem_map.mpr ⟨kv, hkv, hc⟩))
  have hpost : ∀ kv ∈ post, kv.1 ≠ k := by
    intro kv hkv hc
    exact hkeys (List.mem_append_right _ (List.mem_map.mpr ⟨kv, hkv, hc⟩))
  rw [List.map_append, List.map_cons, List.foldl_append, List.foldl_cons]
  have hnoK : ∀ l ∈ post.map serLine, ∀ w, parseLine l ≠ some (k, w) := by
    intro l hl w hc
    rw [List.mem_map] at hl
    rcases hl with ⟨kv, hkv, hlk⟩
    have hgk : goodKey kv.1 :=
      (hgood kv (List.mem_append_right _ (List.mem_cons_of_mem _ hkv))).1
    rcases parseLine_serLine_key kv.1 kv.2 hgk with h1 | ⟨w2, h1⟩
    · rw [← hlk] at hc
      rw [show ((kv.1, kv.2) : Str × Yaml) = kv from rfl] at h1
      rw [h1] at hc
      simp at hc
    · rw [← hlk] at hc
      rw [show ((kv.1, kv.2) : Str × Yaml) = kv from rfl] at h1
      rw [h1] at hc
      simp only [Option.some.injEq, Prod.mk.injEq] at hc
      exact hpost kv hkv hc.1
  rw [foldl_parseStep_keyAbsent _ _ k hnoK]
  unfold parseStep
  rw [hparse]
  exact fmGet_fmSet_self _ k v

/-! ## Filename round trip and file-store lemmas -/

theorem buildFilename_eq (n st p sl : Str) :
    buildFilename n st p sl =
      n ++ ('-') :: (st ++ ('-') :: (p ++ ('-') :: (sl ++ S (".md")))) := by
  simp [buildFilename, S]

theorem parseFilename_build (n st p sl : Str)
    (hn : wfNumber n) (hst : wfStatus st) (hp : wfPriority p) (hsl : sl ≠ []) :
    parseFilename (buildFilename n st p sl) = ⟨n, st, p, sl⟩ := by
  rw [buildFilename_eq]
  unfold parseFilename
  rw [takeWhile_all_append _ n ('-') _ hn.2 (by decide)]
  rw [List.drop_left, if_neg hn.1]
  simp only [parseFilenameAux1]
  rw [if_pos trivial]
  rw [takeWhile_all_append _ st ('-') _ hst.2 (by decide)]
  rw [List.drop_left, if_neg hst.1]
  have hsuf : (S (".md")).isSuffixOf (sl ++ S (".md")) = true := by
    rw [List.isSuffixOf_iff_suffix]
    exact List.suffix_append sl _
  have hlen : 4 ≤ (sl ++ S (".md")).length := by
    rw [List.length_append]
    have : 1 ≤ sl.length := List.length_pos.mpr hsl
    simp [S] at this ⊢
    omega
  have htake : (sl ++ S (".md")).take ((sl ++ S (".md")).length - 3) = sl := by
    have h3 : (sl ++ S (".md")).length - 3 = sl.length := by
      rw [List.length_append]
      simp [S]
    rw [h3]
    exact List.take_left sl _
  rcases hp with hp | hp | hp <;> subst hp
  · rw [show (S ("p1")) ++ ('-') :: (sl ++ S (".md")) =
        ('p') :: ('1') :: ('-') :: (sl ++ S (".md")) from ?_]
    · simp only [parseFilenameAux2]
      rw [if_pos ⟨trivial, trivial, by simp, trivial, hsuf, hlen⟩, htake]
      rfl
    · rfl
  · rw [show (S ("p2")) ++ ('-') :: (sl ++ S (".md")) =
        ('p') :: ('2') :: ('-') :: (sl ++ S (".md")) from ?_]
    · simp only [parseFilenameAux2]
      rw [if_pos ⟨trivial, trivial, by simp, trivial, hsuf, hlen⟩, htake]
      rfl
    · rfl
  · rw [show (S ("p3")) ++ ('-') :: (sl ++ S (".md")) =
        ('p') :: ('3') :: ('-') :: (sl ++ S (".md")) from ?_]
    · simp only [parseFilenameAux2]
      rw [if_pos ⟨trivial, trivial, by simp, trivial, hsuf, hlen⟩, htake]
      rfl
    · rfl

theorem fsLookup_fsWrite_self (fs : FS) (n c : Str) :
    fsLookup (fsWrite fs n c) n = some c := by
  induction fs with
  | nil =>
    unfold fsWrite fsLookup
    rw [List.find?_cons_of_pos _ (by simp)]
    rfl
  | cons md t ih =>
    rcases md with ⟨m, d⟩
    unfold fsWrite
    by_cases hm : m = n
    · rw [if_pos hm]
      unfold fsLookup
      rw [List.find?_cons_of_pos _ (by simp)]
      rfl
    · rw [if_neg hm]
      unfold fsLookup at ih ⊢
      rw [List.find?_cons_of_neg _ (by simp [hm])]
      exact ih

theorem fmSet_ne_nil (fm : Fm) (k : Str) (v : Yaml) : fmSet fm k v ≠ [] := by
  cases fm with
  | nil => simp [fmSet]
  | cons kv t =>
    rcases kv with ⟨m, w⟩
    unfold fmSet
    split <;> simp

theorem blockTodo_core (fs : FS) (filename reason now content : Str)
    (hfile : fsLookup fs filename = some content)
    (hreason : goodStrVal reason) (hnow : ('\n') ∉ now) :
    ∃ r : BlockResult,
      blockTodo fs filename reason now = some r ∧
      r.newFilename = buildFilename (parseFilename filename).number (S ("blocked"))
        (parseFilename filename).priority (parseFilename filename).slug ∧
      r.trace = FsOp.write filename r.newContent ::
        (if filename = r.newFilename then [] else [FsOp.rename filename r.newFilename]) ∧
      fsLookup r.fs r.newFilename = some r.newContent ∧
      fmGet (parseFrontmatter r.newContent).1 (S ("status"))
        = some (Yaml.str (S ("blocked"))) ∧
      fmGet (parseFrontmatter r.newContent).1 (S ("blocked_reason"))
        = some (Yaml.str reason) ∧
      (parseFrontmatter r.newContent).2 = (parseFrontmatter content).2 := by
  have hgood0 := parseFrontmatter_good content
  have hgkS : goodKey (S ("status")) := by decide
  have hgvS : goodVal (Yaml.str (S ("blocked"))) := by
    show ('\n') ∉ S ("blocked")
    decide
  have hgkA : goodKey (S ("blocked_at")) := by decide
  have hgvA : goodVal (Yaml.str now) := hnow
  have hgkR : goodKey (S ("blocked_reason")) := by decide
  have hgvR : goodVal (Yaml.str reason) := hreason.2.1
  have hgood2 : goodFm (fmSet (fmSet (fmSet (parseFrontmatter content).1
      (S ("status")) (Yaml.str (S ("blocked")))) (S ("blocked_at")) (Yaml.str now))
      (S ("blocked_reason")) (Yaml.str reason)) :=
    goodFm_fmSet _ _ _ (goodFm_fmSet _ _ _ (goodFm_fmSet _ _ _ hgood0.1 hgkS hgvS)
      hgkA hgvA) hgkR hgvR
  have hnodup2 : fmNodup (fmSet (fmSet (fmSet (parseFrontmatter content).1
      (S ("status")) (Yaml.str (S ("blocked")))) (S ("blocked_at")) (Yaml.str now))
      (S ("blocked_reason")) (Yaml.str reason)) :=
    fmNodup_fmSet _ _ _ (fmNodup_fmSet _ _ _ (fmNodup_fmSet _ _ _ hgood0.2))
  have hne2 : fmSet (fmSet (fmSet (parseFrontmatter content).1
      (S ("status")) (Yaml.str (S ("blocked")))) (S ("blocked_at")) (Yaml.str now))
      (S ("blocked_reason")) (Yaml.str reason) ≠ [] := fmSet_ne_nil _ _ _
  have hmemS : (S ("status"), Yaml.str (S ("blocked"))) ∈
      fmSet (fmSet (fmSet (parseFrontmatter content).1
      (S ("status")) (Yaml.str (S ("blocked")))) (S ("blocked_at")) (Yaml.str now))
      (S ("blocked_reason")) (Yaml.str reason) :=
    mem_fmSet_of_ne _ _ _ _ _
      (mem_fmSet_of_ne _ _ _ _ _ (fmSet_mem_self _ _ _) (by decide)) (by decide)
  have hparseS : parseLine (serLine (S ("status"), Yaml.str (S ("blocked")))) =
      some (S ("status"), Yaml.str (S ("blocked"))) := by decide
  have hparseR : parseLine (serLine (S ("blocked_reason"), Yaml.str reason)) =
      some (S ("blocked_reason"), Yaml.str reason) :=
    parseLine_serLine_str _ reason (by decide) hreason
  have hrt := parseFrontmatter_mkContent
    (fmSet (fmSet (fmSet (parseFrontmatter content).1
      (S ("status")) (Yaml.str (S ("blocked")))) (S ("blocked_at")) (Yaml.str now))
      (S ("blocked_reason")) (Yaml.str reason))
    (parseFrontmatter content).2 hgood2 hne2
  have hlookS := reparse_fmGet _ _ _ hnodup2 hgood2 hmemS hparseS
  have hlookR := reparse_fmGet _ _ _ hnodup2 hgood2 (fmSet_mem_self _ _ _) hparseR
  by_cases hif : filename = buildFilename (parseFilename filename).number
      (S ("blocked")) (parseFilename filename).priority (parseFilename filename).slug
  · refine ⟨⟨fsWrite fs filename (mkContent (fmSet (fmSet (fmSet
        (parseFrontmatter content).1 (S ("status")) (Yaml.str (S ("blocked"))))
        (S ("blocked_at")) (Yaml.str now)) (S ("blocked_reason")) (Yaml.str reason))
        (parseFrontmatter content).2),
      [FsOp.write filename (mkContent (fmSet (fmSet (fmSet
        (parseFrontmatter content).1 (S ("status")) (Yaml.str (S ("blocked"))))
        (S ("blocked_at")) (Yaml.str now)) (S ("blocked_reason")) (Yaml.str reason))
        (parseFrontmatter content).2)],
      buildFilename (parseFilename filename).number (S ("blocked"))
        (parseFilename filename).priority (parseFilename filename).slug,
      mkContent (fmSet (fmSet (fmSet
        (parseFrontmatter content).1 (S ("status")) (Yaml.str (S ("blocked"))))
        (S ("blocked_at")) (Yaml.str now)) (S ("blocked_reason")) (Yaml.str reason))
        (parseFrontmatter content).2⟩, ?_, rfl, ?_, ?_, ?_, ?_, ?_⟩
    · simp only [blockTodo, hfile]
      rw [if_pos hif]
    · simp only [if_pos hif]
    · rw [← hif]
      exact fsLookup_fsWrite_self fs filename _
    · rw [hrt]
      exact hlookS
    · rw [hrt]
      exact hlookR
    · rw [hrt]
  · refine ⟨⟨fsRename (fsWrite fs filename (mkContent (fmSet (fmSet (fmSet
        (parseFrontmatter content).1 (S ("status")) (Yaml.str (S ("blocked"))))
        (S ("blocked_at")) (Yaml.str now)) (S ("blocked_reason")) (Yaml.str reason))
        (parseFrontmatter content).2)) filename
        (buildFilename (parseFilename filename).number (S ("blocked"))
          (parseFilename filename).priority (parseFilename filename).slug),
      [FsOp.write filename (mkContent (fmSet (fmSet (fmSet
        (parseFrontmatter content).1 (S ("status")) (Yaml.str (S ("blocked"))))
        (S ("blocked_at")) (Yaml.str now)) (S ("blocked_reason")) (Yaml.str reason))
        (parseFrontmatter content).2),
       FsOp.rename filename (buildFilename (parseFilename filename).number
         (S ("blocked")) (parseFilename filename).priority (parseFilename filename).slug)],
      buildFilename (parseFilename filename).number (S ("blocked"))
        (parseFilename filename).priority (parseFilename filename).slug,
      mkContent (fmSet (fmSet (fmSet
        (parseFrontmatter content).1 (S ("status")) (Yaml.str (S ("blocked"))))
        (S ("blocked_at")) (Yaml.str now)) (S ("blocked_reason")) (Yaml.str reason))
        (parseFrontmatter content).2⟩, ?_, rfl, ?_, ?_, ?_, ?_, ?_⟩
    · simp only [blockTodo, hfile]
      rw [if_neg hif]
    · simp only [if_neg hif]
    · unfold fsRename
      rw [fsLookup_fsWrite_self fs filename _]
      exact fsLookup_fsWrite_self _ _ _
    · rw [hrt]
      exact hlookS
    · rw [hrt]
      exact hlookR
    · rw [hrt]

/-- C3: for every existing item file whose name has the well-formed shape
`{id}-{state}-{priority}-{slug}.md`, `blockTodo(filename, reason)` rewrites
the front matter to status `blocked` with `blocked_reason` equal to the
given reason, renames the file to `{id}-blocked-{priority}-{slug}.md`
preserving id, priority and slug, performs the content write before the
rename (write-then-rename, never rename-then-write), and a subsequent get
of the new filename returns content whose parsed front matter shows
`blocked` and the reason, with the body unchanged.  The reason is assumed
single-line and serialisable (`goodStrVal`), as produced by the CLI. -/
theorem c3_transition_blocked (fs : FS) (n st p sl content reason now : Str)
    (hn : wfNumber n) (hst : wfStatus st) (hp : wfPriority p) (hsl : sl ≠ [])
    (hfile : fsLookup fs (buildFilename n st p sl) = some content)
    (hreason : goodStrVal reason) (hnow : ('\n') ∉ now) :
    ∃ r : BlockResult,
      blockTodo fs (buildFilename n st p sl) reason now = some r ∧
      r.newFilename = buildFilename n (S ("blocked")) p sl ∧
      r.trace = FsOp.write (buildFilename n st p sl) r.newContent ::
        (if buildFilename n st p sl = r.newFilename then []
         else [FsOp.rename (buildFilename n st p sl) r.newFilename]) ∧
      fsLookup r.fs r.newFilename = some r.newContent ∧
      fmGet (parseFrontmatter r.newContent).1 (S ("status"))
        = some (Yaml.str (S ("blocked"))) ∧
      fmGet (parseFrontmatter r.newContent).1 (S ("blocked_reason"))
        = some (Yaml.str reason) ∧
      (parseFrontmatter r.newContent).2 = (parseFrontmatter content).2 := by
  have hpf := parseFilename_build n st p sl hn hst hp hsl
  rcases blockTodo_core fs (buildFilename n st p sl) reason now content hfile
    hreason hnow with ⟨r, h1, h2, h3, h4, h5, h6, h7⟩
  rw [hpf] at h2
  exact ⟨r, h1, h2, h3, h4, h5, h6, h7⟩

/-- Witness for C3 at a concrete store, filename and reason. -/
theorem c3_transition_blocked_witness :
    (wfNumber (S ("001")) ∧ wfStatus (S ("pending")) ∧ wfPriority (S ("p1")) ∧
      (S ("fix")) ≠ ([] : Str) ∧
      fsLookup ex3Fs (buildFilename (S ("001")) (S ("pending")) (S ("p1")) (S ("fix")))
        = some (S ("---\nstatus: pending\npriority: p1\nissue_id: 001\n---\n# Fix\nbody")) ∧
      goodStrVal (S ("needs manual review")) ∧
      ('\n') ∉ (S ("2026-01-01T00:00:00.000Z"))) ∧
    (∃ r : BlockResult,
      blockTodo ex3Fs (buildFilename (S ("001")) (S ("pending")) (S ("p1")) (S ("fix")))
        (S ("needs manual review")) (S ("2026-01-01T00:00:00.000Z")) = some r ∧
      r.newFilename = buildFilename (S ("001")) (S ("blocked")) (S ("p1")) (S ("fix")) ∧
      r.trace = FsOp.write (buildFilename (S ("001")) (S ("pending")) (S ("p1")) (S ("fix")))
          r.newContent ::
        (if buildFilename (S ("001")) (S ("pending")) (S ("p1")) (S ("fix")) = r.newFilename
         then []
         else [FsOp.rename (buildFilename (S ("001")) (S ("pending")) (S ("p1")) (S ("fix")))
           r.newFilename]) ∧
      fsLookup r.fs r.newFilename = some r.newContent ∧
      fmGet (parseFrontmatter r.newContent).1 (S ("status"))
        = some (Yaml.str (S ("blocked"))) ∧
      fmGet (parseFrontmatter r.newContent).1 (S ("blocked_reason"))
        = some (Yaml.str (S ("needs manual review"))) ∧
      (parseFrontmatter r.newContent).2 =
        (parseFrontmatter (S ("---\nstatus: pending\npriority: p1\nissue_id: 001\n---\n# Fix\nbody"))).2) :=
  ⟨⟨by decide, by decide, by decide, by decide, by decide, by decide, by decide⟩,
    c3_transition_blocked ex3Fs (S ("001")) (S ("pending")) (S ("p1")) (S ("fix"))
      (S ("---\nstatus: pending\npriority: p1\nissue_id: 001\n---\n# Fix\nbody"))
      (S ("needs manual review")) (S ("2026-01-01T00:00:00.000Z"))
      (by decide) (by decide) (by decide) (by decide) (by decide) (by decide) (by decide)⟩

/-! ## Sort lemmas -/

theorem mem_ordInsert (le : Todo → Todo → Bool) (a x : Todo) (l : List Todo) :
    x ∈ ordInsert le a l ↔ x = a ∨ x ∈ l := by
  induction l with
  | nil => simp [ordInsert]
  | cons b t ih =>
    simp only [ordInsert]
    split
    · simp [or_comm, or_assoc, or_left_comm]
    · simp only [List.mem_cons, ih]
      tauto

theorem perm_ordInsert (le : Todo → Todo → Bool) (a : Todo) (l : List Todo) :
    (ordInsert le a l).Perm (a :: l) := by
  induction l with
  | nil => simp [ordInsert]
  | cons b t ih =>
    simp only [ordInsert]
    split
    · exact List.Perm.refl _
    · exact (List.Perm.cons b ih).trans (List.Perm.swap a b t)

theorem perm_insSort (le : Todo → Todo → Bool) (l : List Todo) :
    (insSort le l).Perm l := by
  induction l with
  | nil => simp [insSort]
  | cons a t ih =>
    simp only [insSort]
    exact (perm_ordInsert le a (insSort le t)).trans (List.Perm.cons a ih)

theorem pairwise_ordInsert (le : Todo → Todo → Bool) (a : Todo) (l : List Todo)
    (htot : ∀ b ∈ l, le a b = true ∨ le b a = true)
    (htrans : ∀ x ∈ a :: l, ∀ y ∈ a :: l, ∀ z ∈ a :: l,
      le x y = true → le y z = true → le x z = true)
    (h : l.Pairwise (fun x y => le x y = true)) :
    (ordInsert le a l).Pairwise (fun x y => le x y = true) := by
  induction l with
  | nil => simp [ordInsert]
  | cons b t ih =>
    rcases List.pairwise_cons.mp h with ⟨hbt, hpt⟩
    simp only [ordInsert]
    by_cases hab : le a b = true
    · rw [if_pos hab]
      refine List.pairwise_cons.mpr ⟨?_, h⟩
      intro z hz
      rcases List.mem_cons.mp hz with hz | hz
      · exact hz ▸ hab
      · exact htrans a (List.mem_cons_self _ _) b
          (List.mem_cons_of_mem _ (List.mem_cons_self _ _))
          z (List.mem_cons_of_mem _ (List.mem_cons_of_mem _ hz))
          hab (hbt z hz)
    · rw [if_neg hab]
      have hba : le b a = true := by
        rcases htot b (List.mem_cons_self _ _) with h1 | h1
        · exact absurd h1 hab
        · exact h1
      refine List.pairwise_cons.mpr ⟨?_, ?_⟩
      · intro z hz
        rcases (mem_ordInsert le a z t).mp hz with hz | hz
        · exact hz ▸ hba
        · exact hbt z hz
      · apply ih
        · intro c hc
          exact htot c (List.mem_cons_of_mem _ hc)
        · intro x hx y hy z hz
          have hsub : ∀ w, w ∈ a :: t → w ∈ a :: b :: t := by
            intro w hw
            rcases List.mem_cons.mp hw with hw | hw
            · exact hw ▸ List.mem_cons_self _ _
            · exact List.mem_cons_of_mem _ (List.mem_cons_of_mem _ hw)
          exact htrans x (hsub x hx) y (hsub y hy) z (hsub z hz)
        · exact hpt

theorem pairwise_insSort (le : Todo → Todo → Bool) (l : List Todo)
    (htot : ∀ x ∈ l, ∀ y ∈ l, le x y = true ∨ le y x = true)
    (htrans : ∀ x ∈ l, ∀ y ∈ l, ∀ z ∈ l,
      le x y = true → le y z = true → le x z = true) :
    (insSort le l).Pairwise (fun x y => le x y = true) := by
  induction l with
  | nil => simp [insSort]
  | cons a t ih =>
    simp only [insSort]
    have hmem : ∀ x ∈ insSort le t, x ∈ t := by
      intro x hx
      exact (perm_insSort le t).mem_iff.mp hx
    apply pairwise_ordInsert
    · intro b hb
      exact htot a (List.mem_cons_self _ _) b (List.mem_cons_of_mem _ (hmem b hb))
    · intro x hx y hy z hz
      have hsub : ∀ w, w ∈ a :: insSort le t → w ∈ a :: t := by
        intro w hw
        rcases List.mem_cons.mp hw with hw | hw
        · exact hw ▸ List.mem_cons_self _ _
        · exact List.mem_cons_of_mem _ (hmem w hw)
      exact htrans x (hsub x hx) y (hsub y hy) z (hsub z hz)
    · apply ih
      · intro x hx y hy
        exact htot x (List.mem_cons_of_mem _ hx) y (List.mem_cons_of_mem _ hy)
      · intro x hx y hy z hz
        exact htrans x (List.mem_cons_of_mem _ hx) y (List.mem_cons_of_mem _ hy)
          z (List.mem_cons_of_mem _ hz)

theorem filter_ordInsert_neg (le : Todo → Todo → Bool) (p : Todo → Bool)
    (a : Todo) (l : List Todo) (ha : p a = false) :
    (ordInsert le a l).filter p = l.filter p := by
  induction l with
  | nil => simp [ordInsert, ha]
  | cons b t ih =>
    simp only [ordInsert]
    split
    · simp [List.filter_cons, ha]
    · simp only [List.filter_cons]
      rw [ih]

theorem filter_ordInsert_pos (le : Todo → Todo → Bool) (p : Todo → Bool)
    (a : Todo) (l : List Todo) (ha : p a = true)
    (h : ∀ b ∈ l, le a b = false → p b = false) :
    (ordInsert le a l).filter p = a :: l.filter p := by
  induction l with
  | nil => simp [ordInsert, ha]
  | cons b t ih =>
    simp only [ordInsert]
    by_cases hab : le a b = true
    · rw [if_pos hab]
      simp [List.filter_cons, ha]
    · rw [if_neg hab]
      have hpb : p b = false :=
        h b (List.mem_cons_self _ _) (Bool.not_eq_true _ ▸ hab)
      simp only [List.filter_cons, hpb]
      simp only [Bool.false_eq_true, if_neg]
      rw [ih (fun c hc hle => h c (List.mem_cons_of_mem _ hc) hle)]
      simp

theorem filter_insSort (le : Todo → Todo → Bool) (p : Todo → Bool) (l : List Todo)
    (h : ∀ x ∈ l, p x = true → ∀ b ∈ l, le x b = false → p b = false) :
    (insSort le l).filter p = l.filter p := by
  induction l with
  | nil => simp [insSort]
  | cons a t ih =>
    simp only [insSort]
    have hmem : ∀ x ∈ insSort le t, x ∈ t := by
      intro x hx
      exact (perm_insSort le t).mem_iff.mp hx
    by_cases hpa : p a = true
    · rw [filter_ordInsert_pos le p a _ hpa]
      · rw [ih (fun x hx hp b hb hle =>
          h x (List.mem_cons_of_mem _ hx) hp b (List.mem_cons_of_mem _ hb) hle)]
        simp [List.filter_cons, hpa]
      · intro b hb hle
        exact h a (List.mem_cons_self _ _) hpa b
          (List.mem_cons_of_mem _ (hmem b hb)) hle
    · have hpa2 : p a = false := Bool.not_eq_true _ ▸ hpa
      rw [filter_ordInsert_neg le p a _ hpa2]
      rw [ih (fun x hx hp b hb hle =>
        h x (List.mem_cons_of_mem _ hx) hp b (List.mem_cons_of_mem _ hb) hle)]
      simp [List.filter_cons, hpa2]

/-! ## The comparator agrees with the spec key -/

theorem cycleOrder_eq_spec (t : Todo) (h : cycleOk t = true) :
    cycleOrder (cycVal t) = (specGroupRank (cycStrOf t) : Int) ∧
      1 ≤ cycleOrder (cycVal t) ∧ cycleOrder (cycVal t) ≤ 3 := by
  unfold cycStrOf
  cases hc : cycVal t with
  | none => simp [cycleOrder, specGroupRank]
  | some y =>
    cases y with
    | str s =>
      simp only [cycleOrder, specGroupRank]
      by_cases hs : s = []
      · subst hs
        simp
      · rw [if_neg hs]
        by_cases hcur : containsSeq (S ("current")) (lowerStr s) = true
        · rw [if_pos hcur, if_pos ⟨hs, hcur⟩]
          simp
        · rw [if_neg (by simpa using hcur), if_neg (fun hc2 => hcur hc2.2), if_pos hs]
          simp
    | arr l =>
      unfold cycleOk at h
      rw [hc] at h
      simp at h

theorem prioRank_eq_spec (t : Todo) (h : prioOk t = true) :
    prioRank t = some ((specPrioRank t : Int)) := by
  unfold prioRank specPrioRank
  cases hf : fmGet t.frontmatter (S ("priority")) with
  | none =>
    unfold prioOk prioRank at h
    rw [hf] at h
    simp at h
  | some y =>
    cases y with
    | arr l =>
      unfold prioOk prioRank at h
      rw [hf] at h
      simp at h
    | str s =>
      by_cases h1 : s = S ("p1")
      · subst h1
        decide
      · by_cases h2 : s = S ("p2")
        · subst h2
          decide
        · by_cases h3 : s = S ("p3")
          · subst h3
            decide
          · exfalso
            unfold prioOk prioRank at h
            rw [hf] at h
            simp [h1, h2, h3] at h

theorem lexLe3_def (a1 a2 a3 b1 b2 b3 : Nat) :
    lexLe3 (a1, a2, a3) (b1, b2, b3) ↔
      (a1 < b1 ∨ (a1 = b1 ∧ (a2 < b2 ∨ (a2 = b2 ∧ a3 ≤ b3)))) := Iff.rfl

theorem todoLe_iff (a b : Todo)
    (ha : prioOk a = true ∧ cycleOk a = true)
    (hb : prioOk b = true ∧ cycleOk b = true) :
    (todoLe a b = true) ↔ lexLe3 (specKey a) (specKey b) := by
  obtain ⟨hga, hba1, hba3⟩ := cycleOrder_eq_spec a ha.2
  obtain ⟨hgb, hbb1, hbb3⟩ := cycleOrder_eq_spec b hb.2
  have hpa := prioRank_eq_spec a ha.1
  have hpb := prioRank_eq_spec b hb.1
  unfold todoLe cmpTodos
  rw [hga, hgb, hpa, hpb]
  rw [decide_eq_true_iff]
  simp only [specKey, lexLe3_def, numVal, natNum]
  split
  · constructor
    · intro hle
      left
      omega
    · intro hlex
      rcases hlex with h1 | ⟨h1, _⟩
      · omega
      · omega
  · split
    · constructor
      · intro hle
        right
        refine ⟨by omega, ?_⟩
        left
        omega
      · intro hlex
        rcases hlex with h1 | ⟨h1, h2 | ⟨h2, h3⟩⟩
        · omega
        · omega
        · omega
    · constructor
      · intro hle
        right
        refine ⟨by omega, ?_⟩
        right
        exact ⟨by omega, by omega⟩
      · intro hlex
        rcases hlex with h1 | ⟨h1, h2 | ⟨h2, h3⟩⟩
        · omega
        · omega
        · omega

/-- C1: for every collection of todo files (whose parsed items carry a
declared-tier priority and a scalar-or-absent cycle), `listTodos` returns
exactly the parsed items (a permutation), sorted ascending by the key
`(groupRank, priorityRank, id)` — where groupRank is 1 for a non-empty
group containing `current` case-insensitively, 2 for any other non-empty
group and 3 for an empty or absent group, priorityRank maps p1/p2/p3 to
1/2/3, and ties are broken by numeric id — and stably: for every key value
the items with that key appear in their original order. -/
theorem c1_list_sorted_stable (files : List (Str × Str)) (filt : Option Str)
    (hok : ∀ t ∈ parsedTodos files filt, prioOk t = true ∧ cycleOk t = true) :
    (listTodos files filt).Perm (parsedTodos files filt) ∧
    (listTodos files filt).Pairwise (fun a b => lexLe3 (specKey a) (specKey b)) ∧
    ∀ k : Nat × Nat × Nat,
      (listTodos files filt).filter (fun t => decide (specKey t = k)) =
        (parsedTodos files filt).filter (fun t => decide (specKey t = k)) := by
  have hperm : (listTodos files filt).Perm (parsedTodos files filt) :=
    perm_insSort todoLe _
  have htot : ∀ x ∈ parsedTodos files filt, ∀ y ∈ parsedTodos files filt,
      todoLe x y = true ∨ todoLe y x = true := by
    intro x hx y hy
    rw [todoLe_iff x y (hok x hx) (hok y hy), todoLe_iff y x (hok y hy) (hok x hx)]
    simp only [lexLe3]
    omega
  have htrans : ∀ x ∈ parsedTodos files filt, ∀ y ∈ parsedTodos files filt,
      ∀ z ∈ parsedTodos files filt,
      todoLe x y = true → todoLe y z = true → todoLe x z = true := by
    intro x hx y hy z hz
    rw [todoLe_iff x y (hok x hx) (hok y hy), todoLe_iff y z (hok y hy) (hok z hz),
      todoLe_iff x z (hok x hx) (hok z hz)]
    simp only [lexLe3]
    omega
  refine ⟨hperm, ?_, ?_⟩
  · have hp := pairwise_insSort todoLe (parsedTodos files filt) htot htrans
    exact hp.imp_of_mem (fun ha hb hr =>
      (todoLe_iff _ _ (hok _ (hperm.mem_iff.mp ha)) (hok _ (hperm.mem_iff.mp hb))).mp hr)
  · intro k
    apply filter_insSort
    intro x hx hpx b hb hle
    rw [decide_eq_true_iff] at hpx
    rw [decide_eq_false_iff_not]
    intro hkb
    have hxx : lexLe3 (specKey x) (specKey b) := by
      rw [hpx, hkb]
      rcases k with ⟨k1, k2, k3⟩
      rw [lexLe3_def]
      omega
    have hc := (todoLe_iff x b (hok x hx) (hok b hb)).mpr hxx
    rw [hle] at hc
    simp at hc

/-- Witness for C1 on three files spanning the group/priority combinations. -/
theorem c1_list_sorted_stable_witness :
    (∀ t ∈ parsedTodos ex1Files none, prioOk t = true ∧ cycleOk t = true) ∧
    ((listTodos ex1Files none).Perm (parsedTodos ex1Files none) ∧
     (listTodos ex1Files none).Pairwise (fun a b => lexLe3 (specKey a) (specKey b)) ∧
     ∀ k : Nat × Nat × Nat,
       (listTodos ex1Files none).filter (fun t => decide (specKey t = k)) =
         (parsedTodos ex1Files none).filter (fun t => decide (specKey t = k))) :=
  ⟨by decide, c1_list_sorted_stable ex1Files none (by decide)⟩

/-! ## Claims C5, C6, C10: no exclusion, no skipping, total parser -/

theorem parseFrontmatter_default (content : Str) (h : hasFmBlock content = false) :
    parseFrontmatter content = (defaultFm, content) := by
  unfold hasFmBlock at h
  unfold parseFrontmatter
  cases hs : splitOnChar ('\n') content with
  | nil => rfl
  | cons first rest =>
    cases rest with
    | nil => rfl
    | cons r0 rtail =>
      rw [hs] at h
      simp only [] at h ⊢
      by_cases hf : first = S ("---")
      · rw [if_pos hf]
        simp only [hf, Bool.true_and] at h
        · cases hd : findDelimGo rtail with
          | none => rfl
          | some p =>
            rw [hd] at h
            simp at h
      · rw [if_neg hf]

/-- C10: `parseFrontmatter` is total, and whenever the input does not begin
with a `---`-delimited front-matter block it returns the default front
matter — status `pending`, priority `p3` — with the entire input as the
body, so such a file is treated as a pending p3 item rather than
rejected. -/
theorem c10_parse_default (content : Str) (h : hasFmBlock content = false) :
    parseFrontmatter content = (defaultFm, content) ∧
    fmGet defaultFm (S ("status")) = some (Yaml.str (S ("pending"))) ∧
    fmGet defaultFm (S ("priority")) = some (Yaml.str (S ("p3"))) :=
  ⟨parseFrontmatter_default content h, by decide, by decide⟩

/-- Witness for C10 on a file with no front matter at all. -/
theorem c10_parse_default_witness :
    hasFmBlock (S ("# A\nno front matter here")) = false ∧
    (parseFrontmatter (S ("# A\nno front matter here")) =
        (defaultFm, S ("# A\nno front matter here")) ∧
      fmGet defaultFm (S ("status")) = some (Yaml.str (S ("pending"))) ∧
      fmGet defaultFm (S ("priority")) = some (Yaml.str (S ("p3")))) :=
  ⟨by decide, c10_parse_default (S ("# A\nno front matter here")) (by decide)⟩

/-- C5 counterexample: built with no flag (there is none in the code), the
queue from a directory holding one well-formed pending file with no
`linear_cycle` field still contains that item — items with an absent group
are not excluded from `listTodos`. -/
theorem c5_counterexample :
    (listTodos ex5Files none).map (fun t => t.filename) = [S ("001-pending-p1-a.md")] ∧
    (listTodos ex5Files none).map (fun t => fmGet t.frontmatter (S ("linear_cycle")))
      = [none] := by decide

/-- C5 amended: `listTodos` has no include-extra-group flag and never
excludes an item for having an empty or absent group: every parsed item is
in the returned queue, and an empty or absent group receives the lowest
rank 3 (such items sort last, not out). -/
theorem c5_amended (files : List (Str × Str)) (filt : Option Str) (t : Todo)
    (hok : ∀ u ∈ parsedTodos files filt, cycleOk u = true)
    (ht : t ∈ parsedTodos files filt) :
    t ∈ listTodos files filt ∧
    ((cycStrOf t = none ∨ cycStrOf t = some []) → specGroupRank (cycStrOf t) = 3) := by
  constructor
  · exact (perm_insSort todoLe _).mem_iff.mpr ht
  · intro h
    rcases h with h | h <;> rw [h] <;> decide

/-- Witness for the amended C5. -/
theorem c5_amended_witness :
    ((∀ u ∈ parsedTodos ex5Files none, cycleOk u = true) ∧
      mkTodo (S ("001-pending-p1-a.md"))
        (S ("---\nstatus: pending\npriority: p1\n---\n# A\nx")) ∈ parsedTodos ex5Files none) ∧
    (mkTodo (S ("001-pending-p1-a.md"))
        (S ("---\nstatus: pending\npriority: p1\n---\n# A\nx")) ∈ listTodos ex5Files none ∧
      ((cycStrOf (mkTodo (S ("001-pending-p1-a.md"))
          (S ("---\nstatus: pending\npriority: p1\n---\n# A\nx"))) = none ∨
        cycStrOf (mkTodo (S ("001-pending-p1-a.md"))
          (S ("---\nstatus: pending\npriority: p1\n---\n# A\nx"))) = some []) →
        specGroupRank (cycStrOf (mkTodo (S ("001-pending-p1-a.md"))
          (S ("---\nstatus: pending\npriority: p1\n---\n# A\nx")))) = 3)) :=
  ⟨⟨by decide, by decide⟩, c5_amended ex5Files none _ (by decide) (by decide)⟩

/-- C6 counterexample: a directory with a single `.md` file whose front
matter fails to parse — `listTodos` does not skip or report it: the
malformed entry appears in the returned sequence, carrying the default
front matter. -/
theorem c6_counterexample :
    (listTodos ex6Files none).map (fun t => t.filename) = [S ("001-pending-p1-a.md")] ∧
    (listTodos ex6Files none).map (fun t => t.frontmatter) = [defaultFm] := by decide

/-- C6 amended: a parsing failure on one file never aborts the listing and
the file is not skipped either: every `.md` file whose content lacks a
parseable front-matter block is returned as an item with the default front
matter (status `pending`, priority `p3`), alongside all well-formed
items. -/
theorem c6_amended (files : List (Str × Str)) (filt : Option Str)
    (fn content : Str)
    (hok : ∀ u ∈ parsedTodos files filt, cycleOk u = true)
    (hmem : (fn, content) ∈ files) (hmd : (S (".md")).isSuffixOf fn = true)
    (hmal : hasFmBlock content = false)
    (hfilt : filt = none ∨ filt = some (S ("pending"))) :
    (mkTodo fn content).frontmatter = defaultFm ∧
    mkTodo fn content ∈ listTodos files filt := by
  have hfm : (mkTodo fn content).frontmatter = defaultFm := by
    unfold mkTodo
    rw [parseFrontmatter_default content hmal]
  refine ⟨hfm, ?_⟩
  have hall : mkTodo fn content ∈ allTodos files := by
    unfold allTodos
    exact List.mem_map.mpr ⟨(fn, content), List.mem_filter.mpr ⟨hmem, hmd⟩, rfl⟩
  have hkeep : keepStatus filt (mkTodo fn content) = true := by
    rcases hfilt with h | h
    · rw [h]
      rfl
    · rw [h]
      unfold keepStatus
      simp only []
      rw [if_neg (show ¬(S ("pending") = ([] : Str)) by decide), hfm]
      decide
  have hparsed : mkTodo fn content ∈ parsedTodos files filt := by
    unfold parsedTodos
    exact List.mem_filter.mpr ⟨hall, hkeep⟩
  exact (perm_insSort todoLe _).mem_iff.mpr hparsed

/-- Witness for the amended C6. -/
theorem c6_amended_witness :
    ((∀ u ∈ parsedTodos ex6Files none, cycleOk u = true) ∧
      (S ("001-pending-p1-a.md"), S ("# A\nno front matter here")) ∈ ex6Files ∧
      (S (".md")).isSuffixOf (S ("001-pending-p1-a.md")) = true ∧
      hasFmBlock (S ("# A\nno front matter here")) = false) ∧
    ((mkTodo (S ("001-pending-p1-a.md")) (S ("# A\nno front matter here"))).frontmatter
        = defaultFm ∧
      mkTodo (S ("001-pending-p1-a.md")) (S ("# A\nno front matter here"))
        ∈ listTodos ex6Files none) :=
  ⟨⟨by decide, by decide, by decide, by decide⟩,
    c6_amended ex6Files none (S ("001-pending-p1-a.md")) (S ("# A\nno front matter here"))
      (by decide) (by decide) (by decide) (by decide) (Or.inl rfl)⟩

/-! ## Claim C2: dependency-aware next-todo selection -/

theorem firstEligible_eq_none (cids : List Str) (l : List Todo) :
    firstEligible cids l = none ↔ ∀ t ∈ l, eligibleB cids t = false := by
  induction l with
  | nil => simp [firstEligible]
  | cons a rest ih =>
    simp only [firstEligible]
    by_cases hc : ((depsF a).filter (fun d => !(cids.contains d))).isEmpty = true
    · rw [if_pos hc]
      constructor
      · intro h
        simp at h
      · intro h
        have ha := h a (List.mem_cons_self _ _)
        unfold eligibleB at ha
        rw [hc] at ha
        simp at ha
    · rw [if_neg hc]
      rw [ih]
      constructor
      · intro h u hu
        rcases List.mem_cons.mp hu with hu | hu
        · subst hu
          unfold eligibleB
          exact Bool.not_eq_true _ ▸ hc
        · exact h u hu
      · intro h u hu
        exact h u (List.mem_cons_of_mem _ hu)

theorem firstEligible_eq_some (cids : List Str) (l : List Todo) (t : Todo)
    (h : firstEligible cids l = some t) :
    eligibleB cids t = true ∧
    ∃ l1 l2, l = l1 ++ t :: l2 ∧ ∀ u ∈ l1, eligibleB cids u = false := by
  induction l with
  | nil => simp [firstEligible] at h
  | cons a rest ih =>
    simp only [firstEligible] at h
    by_cases hc : ((depsF a).filter (fun d => !(cids.contains d))).isEmpty = true
    · rw [if_pos hc] at h
      cases h
      refine ⟨hc, [], rest, rfl, by simp⟩
    · rw [if_neg hc] at h
      obtain ⟨he, l1, l2, hsplit, hall⟩ := ih h
      refine ⟨he, a :: l1, l2, by rw [List.cons_append, hsplit], ?_⟩
      intro u hu
      rcases List.mem_cons.mp hu with hu | hu
      · subst hu
        unfold eligibleB
        exact Bool.not_eq_true _ ▸ hc
      · exact hall u hu

/-- C2: `getNextTodo` scans the pending queue in its sorted order and
returns the first pending item whose dependency list, after discarding
blank entries, lies inside the completed-id set (`eligibleB`), and none
when no pending item qualifies; in particular while a dependency `b` of an
item `A` is not among the completed ids — including when no item with that
id exists — `getNextTodo` never returns `A`, and once `b` is completed the
eligibility check for `A` passes on the next call. -/
theorem c2_next_eligible (files : List (Str × Str))
    (hok : ∀ u ∈ allTodos files, cycleOk u = true ∧ depsOk u = true) :
    (getNextTodo files = none →
      ∀ t ∈ listTodos files (some (S ("pending"))),
        eligibleB (completedIds files) t = false) ∧
    (∀ t, getNextTodo files = some t →
      eligibleB (completedIds files) t = true ∧
      ∃ l1 l2, listTodos files (some (S ("pending"))) = l1 ++ t :: l2 ∧
        ∀ u ∈ l1, eligibleB (completedIds files) u = false) ∧
    (∀ A b, b ∈ depsF A → (completedIds files).contains b = false →
      getNextTodo files ≠ some A) ∧
    (∀ A b, (∀ d ∈ depsF A, d = b ∨ (completedIds files).contains d = true) →
      eligibleB (b :: completedIds files) A = true) := by
  refine ⟨?_, ?_, ?_, ?_⟩
  · intro h t ht
    exact (firstEligible_eq_none _ _).mp h t ht
  · intro t ht
    exact firstEligible_eq_some _ _ t ht
  · intro A b hb hc hsome
    obtain ⟨he, _⟩ := firstEligible_eq_some _ _ A hsome
    unfold eligibleB at he
    rw [List.isEmpty_iff] at he
    have hbmem : b ∈ (depsF A).filter (fun d => !((completedIds files).contains d)) :=
      List.mem_filter.mpr ⟨hb, by rw [hc]; rfl⟩
    rw [he] at hbmem
    simp at hbmem
  · intro A b hall
    unfold eligibleB
    rw [List.isEmpty_iff, List.filter_eq_nil_iff]
    intro d hd
    rcases hall d hd with h | h
    · subst h
      simp
    · simp at h ⊢
      intro _
      exact h

/-- Witness for C2: item `002` depends on completed `001` and is returned. -/
theorem c2_next_eligible_witness :
    (∀ u ∈ allTodos ex2Files, cycleOk u = true ∧ depsOk u = true) ∧
    ((getNextTodo ex2Files = none →
      ∀ t ∈ listTodos ex2Files (some (S ("pending"))),
        eligibleB (completedIds ex2Files) t = false) ∧
    (∀ t, getNextTodo ex2Files = some t →
      eligibleB (completedIds ex2Files) t = true ∧
      ∃ l1 l2, listTodos ex2Files (some (S ("pending"))) = l1 ++ t :: l2 ∧
        ∀ u ∈ l1, eligibleB (completedIds ex2Files) u = false) ∧
    (∀ A b, b ∈ depsF A → (completedIds ex2Files).contains b = false →
      getNextTodo ex2Files ≠ some A) ∧
    (∀ A b, (∀ d ∈ depsF A, d = b ∨ (completedIds ex2Files).contains d = true) →
      eligibleB (b :: completedIds ex2Files) A = true)) :=
  ⟨by decide, c2_next_eligible ex2Files (by decide)⟩

/-! ## Claim C8: id allocation and slug derivation -/

theorem maxFold_ge_init (files : List Str) (init : Nat) :
    init ≤ files.foldl
      (fun m f => if (S (".md")).isSuffixOf f = true
        then max m (digitsVal (parseFilename f).number) else m) init := by
  induction files generalizing init with
  | nil => exact Nat.le_refl _
  | cons g t ih =>
    rw [List.foldl_cons]
    split
    · exact Nat.le_trans (Nat.le_max_left _ _) (ih _)
    · exact ih _

theorem maxFold_ge_mem (files : List Str) (init : Nat) (f : Str)
    (hf : f ∈ files) (hmd : (S (".md")).isSuffixOf f = true) :
    digitsVal (parseFilename f).number ≤ files.foldl
      (fun m f => if (S (".md")).isSuffixOf f = true
        then max m (digitsVal (parseFilename f).number) else m) init := by
  induction files generalizing init with
  | nil => simp at hf
  | cons g t ih =>
    rw [List.foldl_cons]
    rcases List.mem_cons.mp hf with hf | hf
    · subst hf
      rw [if_pos hmd]
      exact Nat.le_trans (Nat.le_max_right _ _) (maxFold_ge_init t _)
    · split
      · exact ih _ hf
      · exact ih _ hf

theorem maxFold_attained (files : List Str) (init : Nat) :
    files.foldl
      (fun m f => if (S (".md")).isSuffixOf f = true
        then max m (digitsVal (parseFilename f).number) else m) init = init ∨
    ∃ f ∈ files, (S (".md")).isSuffixOf f = true ∧
      digitsVal (parseFilename f).number = files.foldl
        (fun m f => if (S (".md")).isSuffixOf f = true
          then max m (digitsVal (parseFilename f).number) else m) init := by
  induction files generalizing init with
  | nil => exact Or.inl rfl
  | cons g t ih =>
    rw [List.foldl_cons]
    by_cases hmd : (S (".md")).isSuffixOf g = true
    · rw [if_pos hmd]
      rcases ih (max init (digitsVal (parseFilename g).number)) with h | ⟨f, hf, hfm, hfe⟩
      · rcases max_choice init (digitsVal (parseFilename g).number) with h2 | h2
        · exact Or.inl (by rw [h, h2])
        · exact Or.inr ⟨g, List.mem_cons_self _ _, hmd, by rw [h, h2]⟩
      · exact Or.inr ⟨f, List.mem_cons_of_mem _ hf, hfm, hfe⟩
    · rw [if_neg hmd]
      rcases ih init with h | ⟨f, hf, hfm, hfe⟩
      · exact Or.inl h
      · exact Or.inr ⟨f, List.mem_cons_of_mem _ hf, hfm, hfe⟩

theorem slugChar_ne_dash (c : Char) (h : c.isLower = true ∨ c.isDigit = true) :
    c ≠ ('-') := by
  intro hc
  subst hc
  rcases h with h | h <;> simp at h

theorem mem_collapseGo (s : Str) (b : Bool) (c : Char) (h : c ∈ collapseGo b s) :
    (c.isLower = true ∨ c.isDigit = true) ∨ c = ('-') := by
  induction s generalizing b with
  | nil => simp [collapseGo] at h
  | cons x t ih =>
    simp only [collapseGo] at h
    by_cases hx : x.isLower ∨ x.isDigit
    · rw [if_pos hx] at h
      rcases List.mem_cons.mp h with h | h
      · subst h
        left
        rcases hx with hx | hx
        · exact Or.inl hx
        · exact Or.inr hx
      · exact ih false h
    · rw [if_neg hx] at h
      split at h
      · exact ih true h
      · rcases List.mem_cons.mp h with h | h
        · exact Or.inr h
        · exact ih true h

theorem head_collapseGo_true (s : Str) (c : Char)
    (h : (collapseGo true s).head? = some c) : c.isLower = true ∨ c.isDigit = true := by
  induction s with
  | nil => simp [collapseGo] at h
  | cons x t ih =>
    simp only [collapseGo] at h
    by_cases hx : x.isLower ∨ x.isDigit
    · rw [if_pos hx] at h
      simp only [List.head?] at h
      cases h
      rcases hx with hx | hx
      · exact Or.inl hx
      · exact Or.inr hx
    · rw [if_neg hx, if_pos trivial] at h
      exact ih h

theorem dd_isPrefixOf_cons (x : Char) (l : Str) :
    (S ("--")).isPrefixOf (x :: l) = true ↔ x = ('-') ∧ l.head? = some ('-') := by
  cases l with
  | nil => simp [List.isPrefixOf, S]
  | cons y u =>
    simp [List.isPrefixOf, S]
    constructor
    · intro h2
      exact ⟨h2.1.symm, h2.2.symm⟩
    · intro h2
      exact ⟨h2.1.symm, h2.2.symm⟩

theorem containsSeq_iff_inf (n h : Str) : containsSeq n h = true ↔ n <:+: h := by
  induction h with
  | nil =>
    simp only [containsSeq, List.isEmpty_iff]
    constructor
    · intro he
      rw [he]
    · intro he
      exact List.infix_nil.mp he
  | cons c t ih =>
    simp only [containsSeq, Bool.or_eq_true, ih]
    rw [List.infix_cons_iff]
    constructor
    · intro hh
      rcases hh with hh | hh
      · exact Or.inl ( List.isPrefixOf_iff_prefix.mp hh)
      · exact Or.inr hh
    · intro hh
      rcases hh with hh | hh
      · exact Or.inl ( List.isPrefixOf_iff_prefix.mpr hh)
      · exact Or.inr hh

theorem containsSeq_mono (n l1 l2 : Str) (hsub : l1 <:+: l2)
    (h : containsSeq n l1 = true) : containsSeq n l2 = true := by
  rw [containsSeq_iff_inf] at h ⊢
  exact h.trans hsub

theorem collapseGo_noAdj (s : Str) (b : Bool) :
    containsSeq (S ("--")) (collapseGo b s) = false := by
  induction s generalizing b with
  | nil => rfl
  | cons x t ih =>
    simp only [collapseGo]
    by_cases hx : x.isLower ∨ x.isDigit
    · rw [if_pos hx]
      simp only [containsSeq, Bool.or_eq_false_iff]
      refine ⟨?_, ih false⟩
      have hxd : x ≠ ('-') := slugChar_ne_dash x (by tauto)
      cases hcol : collapseGo false t with
      | nil => simp [List.isPrefixOf, S, hxd]
      | cons y u =>
        simp [List.isPrefixOf, S, hxd]
        intro h1
        exact absurd h1.symm hxd
    · rw [if_neg hx]
      split
      · exact ih true
      · simp only [containsSeq, Bool.or_eq_false_iff]
        refine ⟨?_, ih true⟩
        cases hcol : collapseGo true t with
        | nil => simp [List.isPrefixOf, S]
        | cons y u =>
          have hy : y.isLower = true ∨ y.isDigit = true :=
            head_collapseGo_true t y (by rw [hcol]; rfl)
          have hyd : y ≠ ('-') := slugChar_ne_dash y hy
          simp [List.isPrefixOf, S, hyd]
          exact fun hyy => hyd hyy.symm

theorem headq_of_pre (l1 l2 : Str) (h : l1 <+: l2) (c : Char)
    (hc : l1.head? = some c) : l2.head? = some c := by
  rcases h with ⟨u, hu⟩
  subst hu
  cases l1 with
  | nil => simp at hc
  | cons x t =>
    simp only [List.head?] at hc
    cases hc
    rfl

theorem stripTrailingDash_pre (s : Str) : stripTrailingDash s <+: s := by
  unfold stripTrailingDash
  split
  · split
    · exact List.dropLast_prefix s
    · exact List.prefix_rfl
  · exact List.prefix_rfl

theorem stripLeadingDash_inf (s : Str) : stripLeadingDash s <:+: s := by
  cases s with
  | nil => simp [stripLeadingDash]
  | cons c t =>
    simp only [stripLeadingDash]
    split
    · exact (List.suffix_cons c t).isInfix
    · exact List.infix_rfl

theorem slugify_inf (t : Str) :
    slugify t <:+: collapseNonAlnum (lowerStr t) := by
  unfold slugify trimDashes
  exact ((( List.take_prefix _ _).trans
    (stripTrailingDash_pre _)).isInfix).trans (stripLeadingDash_inf _)

theorem collapse_dash_tail (s : Str) (r : Str)
    (h : collapseGo false s = ('-') :: r) (c : Char) (hc : r.head? = some c) :
    c.isLower = true ∨ c.isDigit = true := by
  induction s with
  | nil => simp [collapseGo] at h
  | cons x t ih =>
    simp only [collapseGo] at h
    by_cases hx : x.isLower ∨ x.isDigit
    · rw [if_pos hx] at h
      have hx2 : x = ('-') := (List.cons.injEq _ _ _ _ ▸ h).1
      exact absurd hx2 (slugChar_ne_dash x (by tauto))
    · rw [if_neg hx, if_neg (by simp)] at h
      have hr : r = collapseGo true t := ((List.cons.injEq _ _ _ _ ▸ h).2).symm
      rw [hr] at hc
      exact head_collapseGo_true t c hc

theorem slug_head_ne_dash (t : Str) : (slugify t).head? ≠ some ('-') := by
  intro hhead
  have hstep : (stripTrailingDash (stripLeadingDash (collapseNonAlnum (lowerStr t)))).head?
      = some ('-') :=
    headq_of_pre _ _ ( List.take_prefix _ _) _ hhead
  have hlead : (stripLeadingDash (collapseNonAlnum (lowerStr t))).head? = some ('-') :=
    headq_of_pre _ _ (stripTrailingDash_pre _) _ hstep
  unfold collapseNonAlnum at hlead
  cases hC : collapseGo false (lowerStr t) with
  | nil =>
    rw [hC] at hlead
    simp [stripLeadingDash] at hlead
  | cons c0 r =>
    rw [hC] at hlead
    simp only [stripLeadingDash] at hlead
    by_cases hc0 : c0 = ('-')
    · rw [if_pos hc0] at hlead
      subst hc0
      have := collapse_dash_tail (lowerStr t) r hC ('-') hlead
      exact absurd rfl (slugChar_ne_dash ('-') this)
    · rw [if_neg hc0] at hlead
      simp only [List.head?] at hlead
      cases hlead
      exact hc0 rfl

theorem slug_noAdj (t : Str) : containsSeq (S ("--")) (slugify t) = false := by
  cases hb : containsSeq (S ("--")) (slugify t) with
  | false => rfl
  | true =>
    have h2 := containsSeq_mono _ _ _ (slugify_inf t) hb
    unfold collapseNonAlnum at h2
    rw [collapseGo_noAdj] at h2
    cases h2

theorem mem_slugify (t : Str) (c : Char) (h : c ∈ slugify t) :
    (c.isLower = true ∨ c.isDigit = true) ∨ c = ('-') :=
  mem_collapseGo (lowerStr t) false c ((slugify_inf t).sublist.subset h)

/-- C8: `createTodo` allocates the next id as the maximum numeric id among
existing `.md` item files plus one, rendered zero-padded to three digits;
derives the slug from the title by lowercasing, collapsing every run of
non-alphanumeric characters to a single `-`, trimming leading/trailing
separators and truncating to at most 50 characters (so the slug is at most
50 characters of lowercase letters, digits and single dashes, and does not
start with a dash); and writes the new file with state `pending` both in
the filename and the front matter. -/
theorem c8_create_allocation (files : List Str) (o : CreateOptions) :
    (createTodo files o).filename =
      buildFilename (getNextNumber files) (S ("pending")) o.priority (slugify o.title) ∧
    getNextNumber files = padStart 3 ('0') (natToStr (maxTodoNumber files + 1)) ∧
    (∀ f ∈ files, (S (".md")).isSuffixOf f = true →
      digitsVal (parseFilename f).number ≤ maxTodoNumber files) ∧
    (maxTodoNumber files = 0 ∨ ∃ f ∈ files, (S (".md")).isSuffixOf f = true ∧
      digitsVal (parseFilename f).number = maxTodoNumber files) ∧
    fmGet (createTodo files o).fm (S ("status")) = some (Yaml.str (S ("pending"))) ∧
    fmGet (createTodo files o).fm (S ("issue_id")) = some (Yaml.str (getNextNumber files)) ∧
    (slugify o.title).length ≤ 50 ∧
    (∀ c ∈ slugify o.title, (c.isLower = true ∨ c.isDigit = true) ∨ c = ('-')) ∧
    containsSeq (S ("--")) (slugify o.title) = false ∧
    (slugify o.title).head? ≠ some ('-') := by
  refine ⟨rfl, rfl, ?_, ?_, ?_, ?_, ?_, ?_, ?_, ?_⟩
  · intro f hf hmd
    exact maxFold_ge_mem files 0 f hf hmd
  · exact maxFold_attained files 0
  · unfold createTodo
    simp only [List.cons_append, List.nil_append]
    exact fmGet_cons_pos _ _ _
  · unfold createTodo
    simp only [List.cons_append, List.nil_append]
    rw [fmGet_cons_neg _ _ _ _ (by decide), fmGet_cons_neg _ _ _ _ (by decide)]
    exact fmGet_cons_pos _ _ _
  · exact List.length_take_le _ _
  · exact fun c hc => mem_slugify o.title c hc
  · exact slug_noAdj o.title
  · exact slug_head_ne_dash o.title

/-- Witness for C8 at a concrete directory and creation spec. -/
theorem c8_create_allocation_witness :
    (createTodo [S ("003-pending-p2-c.md")] ex4Opts).filename =
      buildFilename (getNextNumber [S ("003-pending-p2-c.md")]) (S ("pending"))
        ex4Opts.priority (slugify ex4Opts.title) ∧
    getNextNumber [S ("003-pending-p2-c.md")] =
      padStart 3 ('0') (natToStr (maxTodoNumber [S ("003-pending-p2-c.md")] + 1)) ∧
    (∀ f ∈ [S ("003-pending-p2-c.md")], (S (".md")).isSuffixOf f = true →
      digitsVal (parseFilename f).number ≤ maxTodoNumber [S ("003-pending-p2-c.md")]) ∧
    (maxTodoNumber [S ("003-pending-p2-c.md")] = 0 ∨
      ∃ f ∈ [S ("003-pending-p2-c.md")], (S (".md")).isSuffixOf f = true ∧
        digitsVal (parseFilename f).number = maxTodoNumber [S ("003-pending-p2-c.md")]) ∧
    fmGet (createTodo [S ("003-pending-p2-c.md")] ex4Opts).fm (S ("status"))
      = some (Yaml.str (S ("pending"))) ∧
    fmGet (createTodo [S ("003-pending-p2-c.md")] ex4Opts).fm (S ("issue_id"))
      = some (Yaml.str (getNextNumber [S ("003-pending-p2-c.md")])) ∧
    (slugify ex4Opts.title).length ≤ 50 ∧
    (∀ c ∈ slugify ex4Opts.title, (c.isLower = true ∨ c.isDigit = true) ∨ c = ('-')) ∧
    containsSeq (S ("--")) (slugify ex4Opts.title) = false ∧
    (slugify ex4Opts.title).head? ≠ some ('-') :=
  c8_create_allocation [S ("003-pending-p2-c.md")] ex4Opts

/-! ## Claim C4: self-dependency is not rejected -/

/-- C4 counterexample: on an empty directory the next id is `001`, and a
creation spec listing `001` among its dependencies is accepted — the
created item's front matter carries `issue_id: 001` and
`dependencies: [001]`, i.e. it depends on its own id.  No self-dependency
check exists in `createTodo` or `parseCreateArgs`. -/
theorem c4_counterexample :
    fmGet (createTodo [] ex4Opts).fm (S ("issue_id")) = some (Yaml.str (S ("001"))) ∧
    fmGet (createTodo [] ex4Opts).fm (S ("dependencies"))
      = some (Yaml.arr [S ("001")]) := by decide

/-- C4 amended: `createTodo` performs no self-dependency validation: any
creation spec with a non-empty dependency list is accepted and its
dependencies are stored verbatim, so a spec whose dependencies contain the
id being assigned (`getNextNumber`) yields an item that depends on its own
id. -/
theorem c4_amended (files : List Str) (o : CreateOptions) (d : Str) (ds : List Str)
    (hdeps : o.dependencies = some (d :: ds)) :
    fmGet (createTodo files o).fm (S ("issue_id"))
      = some (Yaml.str (getNextNumber files)) ∧
    fmGet (createTodo files o).fm (S ("dependencies"))
      = some (Yaml.arr (d :: ds)) := by
  unfold createTodo
  simp only [hdeps]
  constructor
  · simp only [List.cons_append, List.nil_append]
    rw [fmGet_cons_neg _ _ _ _ (by decide), fmGet_cons_neg _ _ _ _ (by decide)]
    exact fmGet_cons_pos _ _ _
  · simp only [List.cons_append, List.nil_append]
    rw [fmGet_cons_neg _ _ _ _ (by decide), fmGet_cons_neg _ _ _ _ (by decide),
      fmGet_cons_neg _ _ _ _ (by decide), fmGet_cons_neg _ _ _ _ (by decide)]
    cases hli : o.linearIssue with
    | none =>
      simp only [List.nil_append]
      cases hlu : o.linearUrl with
      | none =>
        simp only [List.nil_append]
        exact fmGet_cons_pos _ _ _
      | some lu =>
        simp only [List.cons_append, List.nil_append]
        rw [fmGet_cons_neg _ _ _ _ (by decide)]
        exact fmGet_cons_pos _ _ _
    | some li =>
      simp only [List.cons_append, List.nil_append]
      rw [fmGet_cons_neg _ _ _ _ (by decide)]
      cases hlu : o.linearUrl with
      | none =>
        simp only [List.nil_append]
        exact fmGet_cons_pos _ _ _
      | some lu =>
        simp only [List.cons_append, List.nil_append]
        rw [fmGet_cons_neg _ _ _ _ (by decide)]
        exact fmGet_cons_pos _ _ _

/-- Witness for the amended C4. -/
theorem c4_amended_witness :
    ex4Opts.dependencies = some (S ("001") :: []) ∧
    (fmGet (createTodo [] ex4Opts).fm (S ("issue_id"))
        = some (Yaml.str (getNextNumber [])) ∧
      fmGet (createTodo [] ex4Opts).fm (S ("dependencies"))
        = some (Yaml.arr (S ("001") :: []))) :=
  ⟨by decide, c4_amended [] ex4Opts (S ("001")) [] (by decide)⟩

/-! ## Claims C7 and C9: worktree creation and cleanup -/

/-- C7: `createWorktree` fails with an already-exists error whenever a
workspace of that name or a branch of that name is already present, and in
those cases changes nothing (no creation, no overwrite); only when neither
exists does it register the worktree at the deterministic path under the
workspace root together with the new branch. -/
theorem c7_create_worktree (st : GitState) (name branch : Str) (installOk : Bool) :
    (st.wnames.contains name = true →
      (createWorktree st name branch installOk).1.success = false ∧
      (createWorktree st name branch installOk).2 = st ∧
      ∃ e, (createWorktree st name branch installOk).1.error = some e ∧
        containsSeq (S ("already exists")) e = true) ∧
    (st.wnames.contains name = false → st.branches.contains branch = true →
      (createWorktree st name branch installOk).1.success = false ∧
      (createWorktree st name branch installOk).2 = st ∧
      ∃ e, (createWorktree st name branch installOk).1.error = some e ∧
        containsSeq (S ("already exists")) e = true) ∧
    (st.wnames.contains name = false → st.branches.contains branch = false →
      (createWorktree st name branch installOk).2.wnames = st.wnames ++ [name] ∧
      (createWorktree st name branch installOk).2.branches = st.branches ++ [branch] ∧
      (installOk = true →
        (createWorktree st name branch installOk).1.success = true ∧
        (createWorktree st name branch installOk).1.data
          = some (name, worktreePathOf name, branch))) := by
  refine ⟨?_, ?_, ?_⟩
  · intro h
    unfold createWorktree
    rw [if_pos h]
    refine ⟨rfl, rfl, _, rfl, ?_⟩
    rw [containsSeq_iff_inf]
    exact ⟨S ("Worktree ") ++ name ++ [' '], [], by simp [S]⟩
  · intro h1 h2
    unfold createWorktree
    rw [if_neg (by rw [h1]; simp), if_pos h2]
    refine ⟨rfl, rfl, _, rfl, ?_⟩
    rw [containsSeq_iff_inf]
    exact ⟨S ("Failed to create worktree: a branch named ") ++ branch ++ [' '], [],
      by simp [S]⟩
  · intro h1 h2
    unfold createWorktree
    rw [if_neg (by rw [h1]; simp), if_neg (by rw [h2]; simp)]
    refine ⟨?_, ?_, ?_⟩
    · split <;> rfl
    · split <;> rfl
    · intro hi
      rw [if_pos hi]
      exact ⟨rfl, rfl⟩

/-- Witness for C7: creating over an existing worktree name fails without
touching the state. -/
theorem c7_create_worktree_witness :
    (ex7St.wnames.contains (S ("ralph-HOL-1")) = true →
      (createWorktree ex7St (S ("ralph-HOL-1")) (S ("feature/y")) true).1.success = false ∧
      (createWorktree ex7St (S ("ralph-HOL-1")) (S ("feature/y")) true).2 = ex7St ∧
      ∃ e, (createWorktree ex7St (S ("ralph-HOL-1")) (S ("feature/y")) true).1.error
          = some e ∧
        containsSeq (S ("already exists")) e = true) ∧
    (ex7St.wnames.contains (S ("ralph-HOL-1")) = false →
      ex7St.branches.contains (S ("feature/y")) = true →
      (createWorktree ex7St (S ("ralph-HOL-1")) (S ("feature/y")) true).1.success = false ∧
      (createWorktree ex7St (S ("ralph-HOL-1")) (S ("feature/y")) true).2 = ex7St ∧
      ∃ e, (createWorktree ex7St (S ("ralph-HOL-1")) (S ("feature/y")) true).1.error
          = some e ∧
        containsSeq (S ("already exists")) e = true) ∧
    (ex7St.wnames.contains (S ("ralph-HOL-1")) = false →
      ex7St.branches.contains (S ("feature/y")) = false →
      (createWorktree ex7St (S ("ralph-HOL-1")) (S ("feature/y")) true).2.wnames
        = ex7St.wnames ++ [S ("ralph-HOL-1")] ∧
      (createWorktree ex7St (S ("ralph-HOL-1")) (S ("feature/y")) true).2.branches
        = ex7St.branches ++ [S ("feature/y")] ∧
      (true = true →
        (createWorktree ex7St (S ("ralph-HOL-1")) (S ("feature/y")) true).1.success = true ∧
        (createWorktree ex7St (S ("ralph-HOL-1")) (S ("feature/y")) true).1.data
          = some (S ("ralph-HOL-1"), worktreePathOf (S ("ralph-HOL-1")), S ("feature/y")))) :=
  c7_create_worktree ex7St (S ("ralph-HOL-1")) (S ("feature/y")) true

theorem cleanupFold (delOk : Str → Bool) (delErr : Str → Str)
    (wts : List WorktreeInfo) (a1 a2 : List Str) :
    wts.foldl (fun (acc : List Str × List Str) w =>
      if !w.isRalph then acc
      else if delOk w.name then (acc.1 ++ [w.name], acc.2)
      else (acc.1, acc.2 ++ [w.name ++ S (": ") ++ delErr w.name])) (a1, a2) =
    (a1 ++ ((wts.filter (fun w => w.isRalph)).filter
        (fun w => delOk w.name)).map (fun w => w.name),
     a2 ++ ((wts.filter (fun w => w.isRalph)).filter
        (fun w => !(delOk w.name))).map
       (fun w => w.name ++ S (": ") ++ delErr w.name)) := by
  induction wts generalizing a1 a2 with
  | nil => simp
  | cons w t ih =>
    rw [List.foldl_cons]
    by_cases hr : w.isRalph = true
    · rw [if_neg (by simp [hr])]
      by_cases hd : delOk w.name = true
      · rw [if_pos hd]
        rw [ih]
        simp [List.filter_cons, hr, hd]
      · rw [if_neg hd]
        rw [ih]
        simp [List.filter_cons, hr, hd]
    · rw [if_pos (by simp [hr])]
      rw [ih]
      simp [List.filter_cons, hr]

/-- C9: `cleanupWorktrees` attempts to delete every listed worktree whose
name starts with `ralph-`, unconditionally — the deletion outcome function
is its only input besides the worktree listing, no external claim or issue
status is consulted — it reports overall success exactly when every
individual deletion succeeded, its `cleaned` and `errors` lists partition
the listed ralph worktrees by deletion outcome, and its `kept` list is
always empty. -/
theorem c9_cleanup (output : Str) (delOk : Str → Bool) (delErr : Str → Str) :
    (cleanupWorktrees output delOk delErr).kept = [] ∧
    ((cleanupWorktrees output delOk delErr).success = true ↔
      (cleanupWorktrees output delOk delErr).errors = []) ∧
    (cleanupWorktrees output delOk delErr).cleaned =
      (((listWorktrees output false).filter (fun w => w.isRalph)).filter
        (fun w => delOk w.name)).map (fun w => w.name) ∧
    (cleanupWorktrees output delOk delErr).errors =
      (((listWorktrees output false).filter (fun w => w.isRalph)).filter
        (fun w => !(delOk w.name))).map
        (fun w => w.name ++ S (": ") ++ delErr w.name) ∧
    (cleanupWorktrees output delOk delErr).cleaned.length +
        (cleanupWorktrees output delOk delErr).errors.length =
      ((listWorktrees output false).filter (fun w => w.isRalph)).length := by
  unfold cleanupWorktrees
  simp only []
  rw [cleanupFold delOk delErr (listWorktrees output false) [] []]
  simp only [List.nil_append]
  refine ⟨by trivial, List.isEmpty_iff, by trivial, by trivial, ?_⟩
  rw [List.length_map, List.length_map]
  have hsplit : ∀ (l : List WorktreeInfo) (p : WorktreeInfo → Bool),
      (l.filter p).length + (l.filter (fun w => !(p w))).length = l.length := by
    intro l p
    induction l with
    | nil => rfl
    | cons w t ih =>
      by_cases h : p w = true <;> simp [List.filter_cons, h, ← ih] <;> omega
  exact hsplit _ _

/-- Witness for C9 on a concrete porcelain listing with one deletable and
one failing ralph worktree. -/
theorem c9_cleanup_witness :
    (cleanupWorktrees
        (S ("worktree /repo\nHEAD abc\nbranch refs/heads/main\n\nworktree /repo/.worktrees/ralph-HOL-7\nHEAD def\n\nworktree /repo/.worktrees/ralph-HOL-8\nHEAD eee\n"))
        (fun n => n = S ("ralph-HOL-7")) (fun _ => S ("boom"))).kept = [] ∧
    ((cleanupWorktrees
        (S ("worktree /repo\nHEAD abc\nbranch refs/heads/main\n\nworktree /repo/.worktrees/ralph-HOL-7\nHEAD def\n\nworktree /repo/.worktrees/ralph-HOL-8\nHEAD eee\n"))
        (fun n => n = S ("ralph-HOL-7")) (fun _ => S ("boom"))).success = true ↔
      (cleanupWorktrees
        (S ("worktree /repo\nHEAD abc\nbranch refs/heads/main\n\nworktree /repo/.worktrees/ralph-HOL-7\nHEAD def\n\nworktree /repo/.worktrees/ralph-HOL-8\nHEAD eee\n"))
        (fun n => n = S ("ralph-HOL-7")) (fun _ => S ("boom"))).errors = []) ∧
    (cleanupWorktrees
        (S ("worktree /repo\nHEAD abc\nbranch refs/heads/main\n\nworktree /repo/.worktrees/ralph-HOL-7\nHEAD def\n\nworktree /repo/.worktrees/ralph-HOL-8\nHEAD eee\n"))
        (fun n => n = S ("ralph-HOL-7")) (fun _ => S ("boom"))).cleaned =
      (((listWorktrees
        (S ("worktree /repo\nHEAD abc\nbranch refs/heads/main\n\nworktree /repo/.worktrees/ralph-HOL-7\nHEAD def\n\nworktree /repo/.worktrees/ralph-HOL-8\nHEAD eee\n"))
        false).filter (fun w => w.isRalph)).filter
        (fun w => (fun n => n = S ("ralph-HOL-7")) w.name)).map (fun w => w.name) ∧
    (cleanupWorktrees
        (S ("worktree /repo\nHEAD abc\nbranch refs/heads/main\n\nworktree /repo/.worktrees/ralph-HOL-7\nHEAD def\n\nworktree /repo/.worktrees/ralph-HOL-8\nHEAD eee\n"))
        (fun n => n = S ("ralph-HOL-7")) (fun _ => S ("boom"))).errors =
      (((listWorktrees
        (S ("worktree /repo\nHEAD abc\nbranch refs/heads/main\n\nworktree /repo/.worktrees/ralph-HOL-7\nHEAD def\n\nworktree /repo/.worktrees/ralph-HOL-8\nHEAD eee\n"))
        false).filter (fun w => w.isRalph)).filter
        (fun w => !((fun n => n = S ("ralph-HOL-7")) w.name))).map
        (fun w => w.name ++ S (": ") ++ (fun _ => S ("boom")) w.name) ∧
    (cleanupWorktrees
        (S ("worktree /repo\nHEAD abc\nbranch refs/heads/main\n\nworktree /repo/.worktrees/ralph-HOL-7\nHEAD def\n\nworktree /repo/.worktrees/ralph-HOL-8\nHEAD eee\n"))
        (fun n => n = S ("ralph-HOL-7")) (fun _ => S ("boom"))).cleaned.length +
      (cleanupWorktrees
        (S ("worktree /repo\nHEAD abc\nbranch refs/heads/main\n\nworktree /repo/.worktrees/ralph-HOL-7\nHEAD def\n\nworktree /repo/.worktrees/ralph-HOL-8\nHEAD eee\n"))
        (fun n => n = S ("ralph-HOL-7")) (fun _ => S ("boom"))).errors.length =
      ((listWorktrees
        (S ("worktree /repo\nHEAD abc\nbranch refs/heads/main\n\nworktree /repo/.worktrees/ralph-HOL-7\nHEAD def\n\nworktree /repo/.worktrees/ralph-HOL-8\nHEAD eee\n"))
        false).filter (fun w => w.isRalph)).length :=
  c9_cleanup
    (S ("worktree /repo\nHEAD abc\nbranch refs/heads/main\n\nworktree /repo/.worktrees/ralph-HOL-7\nHEAD def\n\nworktree /repo/.worktrees/ralph-HOL-8\nHEAD eee\n"))
    (fun n => n = S ("ralph-HOL-7")) (fun _ => S ("boom"))
